import Mathlib

/-!
Verification of the two-axis block-tree model of this repository.

The embedded code comes from two files:

* `src/app/blockStore.ts` — a state container holding two flat lists of
  `Block` nodes (`rowBlocks`, `columnBlocks`) and four mutation actions
  (`reorderBlock`, `updateLabel`, `addBlock`, `removeBlock`).
* `src/app/page.tsx` — rendering helpers over a keyed map of blocks
  (`leafCount`, `flattenLeaves`) and a second reorder implementation
  (`reorder`, built on dnd-kit's `arrayMove`).

JavaScript specifics that matter for faithfulness and are modelled
explicitly:

* `Array.prototype.find` / `findIndex` return the first match; we model
  them with `List.find?` / `List.findIdx?`.
* `new Map(entries).get(k)` returns the value of the **last** entry with
  key `k`; we model it by searching the reversed list.
* `if (block.parentId)` tests JS truthiness, so an empty-string parent id
  behaves like a missing parent; we model the truthiness test exactly.
* `splice(indexOf(x), 1)` removes the last element when `x` is absent
  (`indexOf` returns `-1`); `spliceAtIndexOf` reproduces this.
* The depth-first collection inside `removeBlock` and the recursions in
  `leafCount` / `flattenLeaves` are unbounded in JS; we embed them with an
  explicit fuel parameter.  `removeBlock` runs its collection with fuel
  `blocks.length`, which the development proves sufficient whenever the
  forest invariant holds.
* `leafCount` / `flattenLeaves` dereference `map.get(id)!` without a
  check; a failing lookup (a JS crash) is modelled by `Option.none`.
-/

/-- A node of one of the two label trees (`Block` in both source files). -/
structure Block where
  id : String
  label : String
  parentId : Option String
  children : List String
deriving DecidableEq, Repr

/-- The axis selector of the store (`type Axis = "row" | "column"`). -/
inductive Axis where
  | row
  | column
deriving DecidableEq, Repr

/-- The data carried by the zustand store: one flat block list per axis. -/
structure BlockState where
  rowBlocks : List Block
  columnBlocks : List Block
deriving DecidableEq, Repr

/-- Select the flat list of the given axis
(`axis === "row" ? state.rowBlocks : state.columnBlocks`). -/
def axisBlocks (s : BlockState) : Axis → List Block
  | Axis.row => s.rowBlocks
  | Axis.column => s.columnBlocks

/-- Write back the flat list of the given axis. -/
def setAxisBlocks (s : BlockState) : Axis → List Block → BlockState
  | Axis.row, bs => { s with rowBlocks := bs }
  | Axis.column, bs => { s with columnBlocks := bs }

/-- First block with the given id (`blocks.find(b => b.id === i)`). -/
def findBlock (bs : List Block) (i : String) : Option Block :=
  bs.find? (fun b => b.id == i)

/-- The identifiers of the blocks of a flat list, in list order. -/
def idsOf (bs : List Block) : List String :=
  bs.map (fun b => b.id)

/-- Children of the first block with the given id; `[]` when absent. -/
def childrenOf (bs : List Block) (i : String) : List String :=
  (findBlock bs i).elim [] (fun b => b.children)

/-- Replace the first element satisfying `p` by its image under `f`;
models an immer-style in-place mutation of the block found by
`blocks.find(...)`. -/
def updateFirst (p : Block → Bool) (f : Block → Block) : List Block → List Block
  | [] => []
  | b :: bs => if p b then f b :: bs else b :: updateFirst p f bs

/-- JS truthiness of a `string | null` value: `null` and `""` are falsy. -/
def jsTruthy : Option String → Bool
  | none => false
  | some s => !(s == "")

/-- `children.splice(children.indexOf(x), 1)`: removes the first
occurrence of `x`, or — because `indexOf` yields `-1` — the last element
when `x` is absent. -/
def spliceAtIndexOf (xs : List String) (x : String) : List String :=
  match xs.findIdx? (fun y => y == x) with
  | some i => xs.eraseIdx i
  | none => xs.dropLast

/-- The child-sequence update of `reorderBlock`: find both indices on the
original sequence, bail out on `-1`, then
`splice(from, 1); splice(to, 0, activeId)`. -/
def reorderChildren (children : List String) (activeId overId : String) :
    Option (List String) :=
  match children.findIdx? (fun y => y == activeId),
        children.findIdx? (fun y => y == overId) with
  | some fi, some ti => some ((children.eraseIdx fi).insertIdx ti activeId)
  | some _, none => none
  | none, _ => none

/-- `reorderBlock` of `blockStore.ts`, acting on one axis list. -/
def reorderAxis (parentId activeId overId : String) (bs : List Block) :
    List Block :=
  match findBlock bs parentId with
  | none => bs
  | some parent =>
    match reorderChildren parent.children activeId overId with
    | none => bs
    | some cs =>
      updateFirst (fun b => b.id == parentId)
        (fun b => { b with children := cs }) bs

/-- `updateLabel` of `blockStore.ts`, acting on one axis list. -/
def updateLabelAxis (i label : String) (bs : List Block) : List Block :=
  match findBlock bs i with
  | none => bs
  | some _ =>
    updateFirst (fun b => b.id == i) (fun b => { b with label := label }) bs

/-- `addBlock` of `blockStore.ts`, acting on one axis list: push the new
id onto the parent's children, then push the block onto the flat list;
silent no-op when the parent is absent. -/
def addAxis (parentId : String) (blk : Block) (bs : List Block) : List Block :=
  match findBlock bs parentId with
  | none => bs
  | some _ =>
    updateFirst (fun b => b.id == parentId)
      (fun b => { b with children := b.children ++ [blk.id] }) bs ++ [blk]

/-- Generic fuelled depth-first collection over a child function:
visit the start node, then recursively every child. -/
def dfsVia (ch : String → List String) : Nat → String → List String
  | 0, _ => []
  | fuel+1, x => x :: (ch x).flatMap (dfsVia ch fuel)

/-- The depth-first collection inside `removeBlock`
(`dfs = bid => { removeIds.add(bid); blocks.find(...)?.children.forEach(dfs) }`),
with explicit fuel. -/
def dfsCollect (bs : List Block) : Nat → String → List String
  | 0, _ => []
  | fuel+1, bid => bid :: (childrenOf bs bid).flatMap (dfsCollect bs fuel)

/-- `removeBlock` of `blockStore.ts`, acting on one axis list: detach the
id from its (truthy) parent's children, depth-first collect the subtree,
then drop every collected block from the flat list. -/
def removeAxis (i : String) (bs : List Block) : List Block :=
  match findBlock bs i with
  | none => bs
  | some blk =>
    let bs1 :=
      if jsTruthy blk.parentId then
        match blk.parentId with
        | none => bs
        | some p =>
          match findBlock bs p with
          | none => bs
          | some _ =>
            updateFirst (fun b => b.id == p)
              (fun b => { b with children := spliceAtIndexOf b.children i }) bs
      else bs
    let removeIds := dfsCollect bs1 bs1.length i
    bs1.filter (fun b => !(removeIds.contains b.id))

/-- The store action `reorderBlock(axis, parentId, activeId, overId)`. -/
def reorderBlock (axis : Axis) (parentId activeId overId : String)
    (s : BlockState) : BlockState :=
  setAxisBlocks s axis (reorderAxis parentId activeId overId (axisBlocks s axis))

/-- The store action `updateLabel(axis, id, label)`. -/
def updateLabel (axis : Axis) (i label : String) (s : BlockState) : BlockState :=
  setAxisBlocks s axis (updateLabelAxis i label (axisBlocks s axis))

/-- The store action `addBlock(axis, parentId, block)`. -/
def addBlock (axis : Axis) (parentId : String) (blk : Block)
    (s : BlockState) : BlockState :=
  setAxisBlocks s axis (addAxis parentId blk (axisBlocks s axis))

/-- The store action `removeBlock(axis, id)`. -/
def removeBlock (axis : Axis) (i : String) (s : BlockState) : BlockState :=
  setAxisBlocks s axis (removeAxis i (axisBlocks s axis))

/-- The initial state of `useBlockStore`. -/
def initialState : BlockState where
  rowBlocks :=
    [ { id := "ROW_ROOT", label := "RowRoot", parentId := none,
        children := ["ROW_A", "ROW_B"] },
      { id := "ROW_A", label := "Row-A", parentId := some "ROW_ROOT",
        children := ["ROW_A1", "ROW_A2"] },
      { id := "ROW_B", label := "Row-B", parentId := some "ROW_ROOT",
        children := ["ROW_B1"] },
      { id := "ROW_A1", label := "row-a1", parentId := some "ROW_A",
        children := [] },
      { id := "ROW_A2", label := "row-a2", parentId := some "ROW_A",
        children := [] },
      { id := "ROW_B1", label := "row-b1", parentId := some "ROW_B",
        children := [] } ]
  columnBlocks :=
    [ { id := "COL_ROOT", label := "ColRoot", parentId := none,
        children := ["COL_X", "COL_Y"] },
      { id := "COL_X", label := "Col-X", parentId := some "COL_ROOT",
        children := ["X1", "X2"] },
      { id := "COL_Y", label := "Col-Y", parentId := some "COL_ROOT",
        children := ["Y1"] },
      { id := "X1", label := "x1", parentId := some "COL_X", children := [] },
      { id := "X2", label := "x2", parentId := some "COL_X", children := [] },
      { id := "Y1", label := "y1", parentId := some "COL_Y", children := [] } ]

/-! Helpers of `page.tsx`.  The page keeps its own copy of the trees and
accesses them through `buildMap`, a JS `Map` keyed by id — on duplicate
ids the last entry wins. -/

/-- `buildMap(blocks).get(i)`: the last block with the given id. -/
def mapGet (blocks : List Block) (i : String) : Option Block :=
  blocks.reverse.find? (fun b => b.id == i)

/-- Children under `mapGet`; `[]` when absent. -/
def childrenOfMap (blocks : List Block) (i : String) : List String :=
  (mapGet blocks i).elim [] (fun b => b.children)

/-- Sequence a list of `Option` computations left to right, as JS
`reduce` / `flatMap` would evaluate them, aborting at the first crash. -/
def seqOption {α β : Type} (f : α → Option β) : List α → Option (List β)
  | [] => some []
  | a :: as =>
    match f a with
    | none => none
    | some b =>
      match seqOption f as with
      | none => none
      | some bs => some (b :: bs)

/-- `leafCount(id, map)` of `page.tsx`, fuelled; `none` models either a
crash on a missing id (`map.get(id)!`) or exhausted fuel. -/
def leafCount (m : List Block) : Nat → String → Option Nat
  | 0, _ => none
  | fuel+1, i =>
    match mapGet m i with
    | none => none
    | some b =>
      if b.children.isEmpty then some 1
      else (seqOption (leafCount m fuel) b.children).map
        (fun ns => ns.foldl (fun s c => s + c) 0)

/-- `flattenLeaves(id, map)` of `page.tsx`, fuelled. -/
def flattenLeaves (m : List Block) : Nat → String → Option (List String)
  | 0, _ => none
  | fuel+1, i =>
    match mapGet m i with
    | none => none
    | some b =>
      if b.children.isEmpty then some [i]
      else (seqOption (flattenLeaves m fuel) b.children).map List.flatten

/-- JS `indexOf`: first index, or `-1` when absent. -/
def jsIndexOf (l : List String) (x : String) : Int :=
  match l.findIdx? (fun y => y == x) with
  | some k => (k : Int)
  | none => -1

/-- Normalisation an index passed to `splice`: negative indices count
from the end (clamped at `0`), positive ones are clamped at the length. -/
def spliceIndex (len : Nat) (i : Int) : Nat :=
  if i < 0 then ((len : Int) + i).toNat else min i.toNat len

/-- dnd-kit's `arrayMove(array, from, to)`:
`array.splice(to < 0 ? length + to : to, 0, array.splice(from, 1)[0])`.
An out-of-range `from` removes nothing; JS would then insert `undefined`,
which has no counterpart in `List String` and is modelled as inserting
nothing. -/
def arrayMove (l : List String) (i j : Int) : List String :=
  let s := spliceIndex l.length i
  match l.get? s with
  | none => l.eraseIdx s
  | some x =>
    let l1 := l.eraseIdx s
    l1.insertIdx (spliceIndex l1.length j) x

/-- `reorder(blocks, aId, bId)` of `page.tsx`.  `none` models the crash
`map.get(a.parentId!)!.children` when the common parent id is `null` or
absent from the map. -/
def reorder (blocks : List Block) (aId bId : String) : Option (List Block) :=
  match mapGet blocks aId, mapGet blocks bId with
  | some a, some b =>
    if a.parentId == b.parentId then
      match a.parentId with
      | none => none
      | some pid =>
        match mapGet blocks pid with
        | none => none
        | some parent =>
          let next := arrayMove parent.children
            (jsIndexOf parent.children a.id) (jsIndexOf parent.children b.id)
          some (blocks.map (fun bl =>
            if bl.id == parent.id then { bl with children := next } else bl))
    else some blocks
  | some _, none => some blocks
  | none, _ => some blocks

/-! The forest invariant of the specification: the nodes of an axis form
a forest rooted at exactly one node, every non-root node's identifier
appears in exactly one parent's child sequence, and there are no cycles.
Acyclicity is captured by `rootDist`: every node's parent chain reaches
the root within `bs.length` steps. -/

/-- Total number of occurrences of an identifier across all child
sequences of the list. -/
def occCount (bs : List Block) (x : String) : Nat :=
  (bs.map (fun b => b.children.count x)).sum

/-- Number of root blocks (blocks without a parent reference). -/
def rootCount (bs : List Block) : Nat :=
  bs.countP (fun b => b.parentId.isNone)

/-- Fuelled distance to the root along parent references; `none` when the
chain leaves the list or does not terminate within the fuel. -/
def rootDist (bs : List Block) : Nat → String → Option Nat
  | 0, _ => none
  | fuel+1, i =>
    match findBlock bs i with
    | none => none
    | some b =>
      match b.parentId with
      | none => some 0
      | some p => (rootDist bs fuel p).map (fun d => d + 1)

/-- The `j`-th ancestor along parent references, stepping at the end so
that `ancestor (j+1)` extends `ancestor j` by one parent hop. -/
def ancestor (bs : List Block) : Nat → String → Option String
  | 0, x => some x
  | j+1, x =>
    (ancestor bs j x).bind (fun y => (findBlock bs y).bind (fun b => b.parentId))

/-- The forest invariant of one axis, as stated by the specification. -/
def ForestInv (bs : List Block) : Prop :=
  (idsOf bs).Nodup ∧
  rootCount bs = 1 ∧
  (∀ b ∈ bs, ∀ c ∈ b.children, ∃ cb ∈ bs, cb.id = c ∧ cb.parentId = some b.id) ∧
  (∀ b ∈ bs, occCount bs b.id = (if b.parentId = none then 0 else 1)) ∧
  (∀ b ∈ bs, (rootDist bs bs.length b.id).isSome = true)

/-- The invariant for the whole store state: both axes are forests. -/
def StateInv (s : BlockState) : Prop :=
  ForestInv s.rowBlocks ∧ ForestInv s.columnBlocks

/-- Reachability along a child function: `ReachesVia ch x y` holds when
`y` lies in the subtree depth-first collection started at `x` (with
unbounded fuel). -/
inductive ReachesVia (ch : String → List String) : String → String → Prop
  | refl (x : String) : ReachesVia ch x x
  | step {x y z : String} : y ∈ ch x → ReachesVia ch y z → ReachesVia ch x z

/-- Reachability along the store's child structure: `y` is `x` itself or
a descendant of `x`. -/
def Reaches (bs : List Block) : String → String → Prop :=
  ReachesVia (childrenOf bs)

instance (bs : List Block) : Decidable (ForestInv bs) := by
  unfold ForestInv
  infer_instance

instance (s : BlockState) : Decidable (StateInv s) := by
  unfold StateInv
  infer_instance

/-! Basic lemmas about `findBlock`, `idsOf` and `updateFirst`. -/

theorem findBlock_mem {bs : List Block} {i : String} {b : Block}
    (h : findBlock bs i = some b) : b ∈ bs ∧ b.id = i := by
  refine ⟨List.mem_of_find?_eq_some h, ?_⟩
  have := List.find?_some h
  simpa using this

theorem findBlock_isSome_iff {bs : List Block} {i : String} :
    (findBlock bs i).isSome = true ↔ i ∈ idsOf bs := by
  induction bs with
  | nil => simp [findBlock, idsOf]
  | cons b bs ih =>
    by_cases hb : b.id = i
    · simp [findBlock, idsOf, hb]
    · simp only [findBlock, List.find?] at *
      rw [show (b.id == i) = false by simpa using hb]
      simp only [idsOf, List.map_cons, List.mem_cons]
      rw [ih]
      simp [idsOf]
      tauto

theorem findBlock_eq_none_iff {bs : List Block} {i : String} :
    findBlock bs i = none ↔ i ∉ idsOf bs := by
  rw [← findBlock_isSome_iff]
  cases findBlock bs i <;> simp

theorem mem_idsOf {bs : List Block} {b : Block} (h : b ∈ bs) : b.id ∈ idsOf bs :=
  List.mem_map.mpr ⟨b, h, rfl⟩

theorem nodup_id_inj {bs : List Block} (hnd : (idsOf bs).Nodup)
    {b1 b2 : Block} (h1 : b1 ∈ bs) (h2 : b2 ∈ bs) (hid : b1.id = b2.id) :
    b1 = b2 := by
  induction bs with
  | nil => cases h1
  | cons b bs ih =>
    have hnd' : b.id ∉ idsOf bs ∧ (idsOf bs).Nodup := by
      simpa [idsOf] using hnd
    rcases List.mem_cons.mp h1 with rfl | h1' <;>
      rcases List.mem_cons.mp h2 with rfl | h2'
    · rfl
    · exact absurd (hid.symm ▸ mem_idsOf h2') hnd'.1
    · exact absurd (hid ▸ mem_idsOf h1') hnd'.1
    · exact ih hnd'.2 h1' h2'

theorem mem_findBlock_nodup {bs : List Block} (hnd : (idsOf bs).Nodup)
    {b : Block} (hb : b ∈ bs) : findBlock bs b.id = some b := by
  cases hfb : findBlock bs b.id with
  | none => exact absurd (mem_idsOf hb) (findBlock_eq_none_iff.mp hfb)
  | some b' =>
    obtain ⟨hb', hid⟩ := findBlock_mem hfb
    rw [nodup_id_inj hnd hb' hb hid]

theorem find?_append {α : Type} {p : α → Bool} (l1 l2 : List α) :
    (l1 ++ l2).find? p =
      (match l1.find? p with
       | some b => some b
       | none => l2.find? p) := by
  induction l1 with
  | nil => simp
  | cons a l1 ih =>
    cases hp : p a with
    | true => simp [List.find?_cons, hp]
    | false => simp [List.find?_cons, hp, ih]

theorem updateFirst_of_find?_eq_none {p : Block → Bool} {f : Block → Block}
    {bs : List Block} (h : bs.find? p = none) : updateFirst p f bs = bs := by
  induction bs with
  | nil => rfl
  | cons b bs ih =>
    rw [List.find?_cons] at h
    cases hp : p b with
    | true => simp [hp] at h
    | false =>
      rw [hp] at h
      simp [updateFirst, hp, ih h]

theorem updateFirst_split {p : Block → Bool} {f : Block → Block}
    {bs : List Block} {b : Block} (h : bs.find? p = some b) :
    ∃ l1 l2, bs = l1 ++ b :: l2 ∧ (∀ q ∈ l1, p q = false) ∧
      updateFirst p f bs = l1 ++ f b :: l2 := by
  induction bs with
  | nil => simp at h
  | cons a bs ih =>
    rw [List.find?_cons] at h
    cases hp : p a with
    | true =>
      rw [hp] at h
      simp only [Option.some.injEq] at h
      subst h
      exact ⟨[], bs, by simp, by simp, by simp [updateFirst, hp]⟩
    | false =>
      rw [hp] at h
      obtain ⟨l1, l2, hsplit, hl1, hupd⟩ := ih h
      refine ⟨a :: l1, l2, by simp [hsplit], ?_, by simp [updateFirst, hp, hupd]⟩
      intro q hq
      rcases List.mem_cons.mp hq with rfl | hq'
      · exact hp
      · exact hl1 q hq'

theorem idsOf_append (l1 l2 : List Block) :
    idsOf (l1 ++ l2) = idsOf l1 ++ idsOf l2 := by
  simp [idsOf]

theorem idsOf_updateFirst {p : Block → Bool} {f : Block → Block}
    (hf : ∀ b, (f b).id = b.id) (bs : List Block) :
    idsOf (updateFirst p f bs) = idsOf bs := by
  cases h : bs.find? p with
  | none => rw [updateFirst_of_find?_eq_none h]
  | some b =>
    obtain ⟨l1, l2, hsplit, _, hupd⟩ := updateFirst_split h
    rw [hupd, hsplit]
    simp [idsOf, hf]

theorem length_updateFirst (p : Block → Bool) (f : Block → Block)
    (bs : List Block) : (updateFirst p f bs).length = bs.length := by
  induction bs with
  | nil => rfl
  | cons b bs ih =>
    cases hp : p b <;> simp [updateFirst, hp, ih]

theorem findBlock_updateFirst_id {x : String} {f : Block → Block}
    (hf : ∀ b, (f b).id = b.id) (bs : List Block) (y : String) :
    findBlock (updateFirst (fun b => b.id == x) f bs) y =
      if y = x then (findBlock bs x).map f else findBlock bs y := by
  cases h : bs.find? (fun b => b.id == x) with
  | none =>
    rw [updateFirst_of_find?_eq_none h]
    by_cases hyx : y = x
    · subst hyx
      rw [if_pos rfl]
      show findBlock bs y = (findBlock bs y).map f
      rw [show findBlock bs y = none from h]
      rfl
    · rw [if_neg hyx]
  | some pb =>
    obtain ⟨l1, l2, hsplit, hl1, hupd⟩ := updateFirst_split h
    have hpbx : pb.id = x := by simpa using List.find?_some h
    by_cases hyx : y = x
    · subst hyx
      rw [if_pos rfl, hupd, hsplit]
      show ((l1 ++ f pb :: l2).find? fun b => b.id == y) =
        ((l1 ++ pb :: l2).find? fun b => b.id == y).map f
      rw [find?_append, find?_append]
      have hl1' : l1.find? (fun b => b.id == y) = none := by
        rw [List.find?_eq_none]
        intro q hq
        simpa using hl1 q hq
      rw [hl1']
      simp [List.find?_cons, hf, hpbx]
    · rw [if_neg hyx, hupd, hsplit]
      show ((l1 ++ f pb :: l2).find? fun b => b.id == y) =
        ((l1 ++ pb :: l2).find? fun b => b.id == y)
      rw [find?_append, find?_append]
      cases hfl1 : l1.find? (fun b => b.id == y) with
      | some q => rfl
      | none =>
        have hxy : (x == y) = false := by
          simp
          exact fun hc => hyx hc.symm
        simp [List.find?_cons, hf, hpbx, hxy]

/-! Lemmas about `rootDist`: fuel monotonicity, determinism, one-step
unfolding, and the pigeonhole bound on the distance. -/

theorem rootDist_mono {bs : List Block} :
    ∀ {f f' : Nat} {x : String} {d : Nat}, rootDist bs f x = some d → f ≤ f' →
      rootDist bs f' x = some d := by
  intro f
  induction f with
  | zero => intro f' x d h _; simp [rootDist] at h
  | succ g ih =>
    intro f' x d h hle
    match f', hle with
    | g'+1, hle =>
      have hg : g ≤ g' := Nat.succ_le_succ_iff.mp hle
      cases hfb : findBlock bs x with
      | none => simp [rootDist, hfb] at h
      | some b =>
        cases hp : b.parentId with
        | none =>
          simp only [rootDist, hfb, hp] at h ⊢
          exact h
        | some p =>
          simp only [rootDist, hfb, hp] at h ⊢
          cases hr : rootDist bs g p with
          | none => rw [hr] at h; simp at h
          | some d' =>
            rw [hr] at h
            rw [ih hr hg]
            exact h

theorem rootDist_det {bs : List Block} {f f' : Nat} {x : String} {d d' : Nat}
    (h : rootDist bs f x = some d) (h' : rootDist bs f' x = some d') :
    d = d' := by
  rcases Nat.le_total f f' with hle | hle
  · have := rootDist_mono h hle
    rw [this] at h'
    exact Option.some.inj h'
  · have := rootDist_mono h' hle
    rw [this] at h
    exact (Option.some.inj h).symm

theorem rootDist_lt_fuel {bs : List Block} :
    ∀ {f : Nat} {x : String} {d : Nat}, rootDist bs f x = some d → d < f := by
  intro f
  induction f with
  | zero => intro x d h; simp [rootDist] at h
  | succ g ih =>
    intro x d h
    cases hfb : findBlock bs x with
    | none => simp [rootDist, hfb] at h
    | some b =>
      cases hp : b.parentId with
      | none =>
        simp only [rootDist, hfb, hp, Option.some.injEq] at h
        omega
      | some p =>
        simp only [rootDist, hfb, hp] at h
        cases hr : rootDist bs g p with
        | none => rw [hr] at h; simp at h
        | some d' =>
          rw [hr] at h
          simp only [Option.map_some', Option.some.injEq] at h
          subst h
          exact Nat.succ_lt_succ (ih hr)

theorem rootDist_lookup {bs : List Block} {f : Nat} {x : String} {d : Nat}
    (h : rootDist bs f x = some d) : ∃ b, findBlock bs x = some b := by
  cases f with
  | zero => simp [rootDist] at h
  | succ g =>
    cases hfb : findBlock bs x with
    | none => simp [rootDist, hfb] at h
    | some b => exact ⟨b, rfl⟩

theorem rootDist_zero_unfold {bs : List Block} {f : Nat} {x : String}
    (h : rootDist bs (f+1) x = some 0) :
    ∃ b, findBlock bs x = some b ∧ b.parentId = none := by
  cases hfb : findBlock bs x with
  | none => simp [rootDist, hfb] at h
  | some b =>
    cases hp : b.parentId with
    | none => exact ⟨b, rfl, hp⟩
    | some p =>
      simp only [rootDist, hfb, hp] at h
      cases hr : rootDist bs f p with
      | none => rw [hr] at h; simp at h
      | some d' => rw [hr] at h; simp at h

theorem rootDist_succ_unfold {bs : List Block} {f : Nat} {x : String} {d : Nat}
    (h : rootDist bs (f+1) x = some (d+1)) :
    ∃ b p, findBlock bs x = some b ∧ b.parentId = some p ∧
      rootDist bs f p = some d := by
  cases hfb : findBlock bs x with
  | none => simp [rootDist, hfb] at h
  | some b =>
    cases hp : b.parentId with
    | none => simp [rootDist, hfb, hp] at h
    | some p =>
      simp only [rootDist, hfb, hp] at h
      cases hr : rootDist bs f p with
      | none => rw [hr] at h; simp at h
      | some d' =>
        rw [hr] at h
        simp only [Option.map_some', Option.some.injEq] at h
        exact ⟨b, p, rfl, hp, by rw [hr, Nat.succ_inj.mp h.symm]⟩

theorem rootDist_root {bs : List Block} {f : Nat} {x : String} {b : Block}
    (hfb : findBlock bs x = some b) (hp : b.parentId = none) :
    rootDist bs (f+1) x = some 0 := by
  simp only [rootDist, hfb, hp]

theorem rootDist_parent_succ {bs : List Block} {f : Nat} {x p : String}
    {b : Block} {d : Nat} (hfb : findBlock bs x = some b)
    (hp : b.parentId = some p) (hr : rootDist bs f p = some d) :
    rootDist bs (f+1) x = some (d+1) := by
  simp only [rootDist, hfb, hp, hr, Option.map_some']

theorem ancestor_spec {bs : List Block} {f : Nat} {x : String} {d : Nat}
    (h : rootDist bs f x = some d) :
    ∀ j, j ≤ d → ∃ y, ancestor bs j x = some y ∧
      rootDist bs (f - j) y = some (d - j) := by
  intro j
  induction j with
  | zero => intro _; exact ⟨x, rfl, by simpa⟩
  | succ j ih =>
    intro hj
    obtain ⟨y, hy, hrd⟩ := ih (Nat.le_of_succ_le hj)
    obtain ⟨g, hg⟩ : ∃ g, f - j = g + 1 := by
      have := rootDist_lt_fuel hrd
      have : 1 ≤ d - j := by omega
      exact ⟨f - j - 1, by omega⟩
    rw [hg] at hrd
    obtain ⟨e, he⟩ : ∃ e, d - j = e + 1 := ⟨d - j - 1, by omega⟩
    rw [he] at hrd
    obtain ⟨b, p, hfb, hp, hr⟩ := rootDist_succ_unfold hrd
    refine ⟨p, ?_, ?_⟩
    · simp only [ancestor, hy, Option.some_bind, hfb, Option.some_bind, hp]
    · have h1 : f - (j+1) = g := by omega
      have h2 : d - (j+1) = e := by omega
      rw [h1, h2]
      exact hr

theorem rootDist_lt_length {bs : List Block} (hnd : (idsOf bs).Nodup)
    {f : Nat} {x : String} {d : Nat} (h : rootDist bs f x = some d) :
    d < bs.length := by
  classical
  set L : List String :=
    (List.range (d+1)).map (fun j => (ancestor bs j x).getD "") with hL
  have hget : ∀ j, j ≤ d → ∃ y, ancestor bs j x = some y ∧
      rootDist bs (f - j) y = some (d - j) := ancestor_spec h
  have hlen : L.length = d + 1 := by simp [hL]
  have hinj : ∀ j ∈ List.range (d+1), ∀ k ∈ List.range (d+1),
      (ancestor bs j x).getD "" = (ancestor bs k x).getD "" → j = k := by
    intro j hj k hk heq
    have hj' : j ≤ d := Nat.lt_succ_iff.mp (List.mem_range.mp hj)
    have hk' : k ≤ d := Nat.lt_succ_iff.mp (List.mem_range.mp hk)
    obtain ⟨yj, hyj, hrj⟩ := hget j hj'
    obtain ⟨yk, hyk, hrk⟩ := hget k hk'
    rw [hyj, hyk] at heq
    simp only [Option.getD_some] at heq
    subst heq
    have h1 := rootDist_mono hrj (Nat.sub_le f j)
    have h2 := rootDist_mono hrk (Nat.sub_le f k)
    have := rootDist_det h1 h2
    omega
  have hnodupL : L.Nodup := List.Nodup.map_on hinj (List.nodup_range (d+1))
  have hsub : ∀ z ∈ L, z ∈ idsOf bs := by
    intro z hz
    simp only [hL, List.mem_map, List.mem_range] at hz
    obtain ⟨j, hj, hz'⟩ := hz
    obtain ⟨y, hy, hrd⟩ := hget j (Nat.lt_succ_iff.mp hj)
    rw [hy] at hz'
    simp only [Option.getD_some] at hz'
    subst hz'
    obtain ⟨b, hb⟩ := rootDist_lookup hrd
    obtain ⟨hmem, hid⟩ := findBlock_mem hb
    exact hid ▸ mem_idsOf hmem
  have hcard : L.length ≤ (idsOf bs).length := by
    have h1 : L.toFinset.card = L.length := List.toFinset_card_of_nodup hnodupL
    have h2 : (idsOf bs).toFinset.card = (idsOf bs).length :=
      List.toFinset_card_of_nodup hnd
    have h3 : L.toFinset ⊆ (idsOf bs).toFinset := by
      intro z hz
      rw [List.mem_toFinset] at hz ⊢
      exact hsub z hz
    calc L.length = L.toFinset.card := h1.symm
      _ ≤ (idsOf bs).toFinset.card := Finset.card_le_card h3
      _ = (idsOf bs).length := h2
  have : (idsOf bs).length = bs.length := by simp [idsOf]
  omega

/-! Generic lemmas about the fuelled depth-first collection `dfsVia` and
reachability `ReachesVia`.  Acyclicity enters through a rank function
that strictly decreases along child edges of nodes reachable from the
start node. -/

theorem dfsCollect_eq_dfsVia (bs : List Block) :
    ∀ f x, dfsCollect bs f x = dfsVia (childrenOf bs) f x := by
  intro f
  induction f with
  | zero => intro x; rfl
  | succ g ih =>
    intro x
    simp only [dfsCollect, dfsVia]
    congr 1
    exact List.flatMap_congr (fun c _ => ih c)

theorem reachesVia_snoc {ch : String → List String} {a b c : String}
    (h : ReachesVia ch a b) (hc : c ∈ ch b) : ReachesVia ch a c := by
  induction h with
  | refl x => exact ReachesVia.step hc (ReachesVia.refl c)
  | step hy _ ih => exact ReachesVia.step hy (ih hc)

theorem reachesVia_trans {ch : String → List String} {a b c : String}
    (h1 : ReachesVia ch a b) (h2 : ReachesVia ch b c) : ReachesVia ch a c := by
  induction h1 with
  | refl x => exact h2
  | step hy _ ih => exact ReachesVia.step hy (ih h2)

theorem mem_dfsVia_self {ch : String → List String} {f : Nat} (x : String)
    (hf : 0 < f) : x ∈ dfsVia ch f x := by
  cases f with
  | zero => omega
  | succ g => simp [dfsVia]

theorem dfsVia_sound {ch : String → List String} :
    ∀ {f : Nat} {x y : String}, y ∈ dfsVia ch f x → ReachesVia ch x y := by
  intro f
  induction f with
  | zero => intro x y h; simp [dfsVia] at h
  | succ g ih =>
    intro x y h
    simp only [dfsVia, List.mem_cons, List.mem_flatMap] at h
    rcases h with rfl | ⟨c, hc, hy⟩
    · exact ReachesVia.refl y
    · exact ReachesVia.step hc (ih hy)

theorem dfsVia_stab {ch : String → List String} {i0 : String}
    {rank : String → Nat}
    (hrank : ∀ x c, ReachesVia ch i0 x → c ∈ ch x → rank c < rank x) :
    ∀ {f : Nat} {x : String}, ReachesVia ch i0 x → rank x < f →
      dfsVia ch f x = dfsVia ch (f+1) x := by
  intro f
  induction f with
  | zero => intro x _ h; omega
  | succ g ih =>
    intro x hx hf
    simp only [dfsVia]
    congr 1
    refine List.flatMap_congr (fun c hc => ?_)
    have hrc : rank c < rank x := hrank x c hx hc
    exact ih (reachesVia_snoc hx hc) (by omega)

theorem dfsVia_stab_ge {ch : String → List String} {i0 : String}
    {rank : String → Nat}
    (hrank : ∀ x c, ReachesVia ch i0 x → c ∈ ch x → rank c < rank x)
    {f g : Nat} {x : String} (hx : ReachesVia ch i0 x) (hf : rank x < f)
    (hfg : f ≤ g) : dfsVia ch g x = dfsVia ch f x := by
  induction g with
  | zero => omega
  | succ g' ih =>
    rcases Nat.lt_or_ge f (g'+1) with hlt | hge
    · have h1 : dfsVia ch g' x = dfsVia ch (g'+1) x :=
        dfsVia_stab hrank hx (by omega)
      rw [← h1]
      exact ih (by omega)
    · have : f = g' + 1 := by omega
      rw [this]

theorem dfsVia_complete {ch : String → List String} {i0 : String}
    {rank : String → Nat}
    (hrank : ∀ x c, ReachesVia ch i0 x → c ∈ ch x → rank c < rank x)
    {x y : String} (hx : ReachesVia ch i0 x) (hxy : ReachesVia ch x y) :
    ∀ {f : Nat}, rank x < f → y ∈ dfsVia ch f x := by
  induction hxy with
  | refl z =>
    intro f hf
    exact mem_dfsVia_self z (by omega)
  | @step a b z hb hbz ih =>
    intro f hf
    match f, hf with
    | g+1, hf =>
      simp only [dfsVia, List.mem_cons, List.mem_flatMap]
      refine Or.inr ⟨b, hb, ?_⟩
      have hrb : rank b < rank a := hrank a b hx hb
      exact ih (reachesVia_snoc hx hb) (by omega)

theorem reachesVia_of_agree {ch ch' : String → List String} {p : String}
    (hag : ∀ x, x ≠ p → ch x = ch' x) {i y : String}
    (hp : ∀ z, ReachesVia ch' i z → z ≠ p) (h : ReachesVia ch' i y) :
    ReachesVia ch i y := by
  induction h with
  | refl x => exact ReachesVia.refl x
  | @step a b z hb _ ih =>
    have hap : a ≠ p := hp a (ReachesVia.refl a)
    refine ReachesVia.step ?_ (ih (fun w hw => hp w (ReachesVia.step hb hw)))
    rw [hag a hap]
    exact hb

theorem dfsVia_congr {ch ch' : String → List String} {p : String}
    (hag : ∀ x, x ≠ p → ch x = ch' x) {i : String}
    (hp : ∀ z, ReachesVia ch' i z → z ≠ p) :
    ∀ {f : Nat}, dfsVia ch f i = dfsVia ch' f i := by
  have main : ∀ (f : Nat) (x : String), ReachesVia ch' i x →
      dfsVia ch f x = dfsVia ch' f x := by
    intro f
    induction f with
    | zero => intro x _; rfl
    | succ g ih =>
      intro x hx
      simp only [dfsVia]
      have hxp : x ≠ p := hp x hx
      rw [hag x hxp]
      congr 1
      refine List.flatMap_congr (fun c hc => ?_)
      exact ih c (reachesVia_snoc hx hc)
  intro f
  exact main f i (ReachesVia.refl i)

theorem reachesVia_inv {ch : String → List String} {i y : String}
    (h : ReachesVia ch i y) (hne : y ≠ i) :
    ∃ d, ReachesVia ch i d ∧ y ∈ ch d := by
  induction h with
  | refl x => exact absurd rfl hne
  | @step a b z hb hbz ih =>
    by_cases hzb : z = b
    · subst hzb
      exact ⟨a, ReachesVia.refl a, hb⟩
    · obtain ⟨d, hd, hyd⟩ := ih hzb
      exact ⟨d, ReachesVia.step hb hd, hyd⟩

/-! Store-specific consequences of the forest invariant. -/

theorem mem_childrenOf {bs : List Block} {x c : String} :
    c ∈ childrenOf bs x ↔ ∃ b, findBlock bs x = some b ∧ c ∈ b.children := by
  unfold childrenOf
  cases h : findBlock bs x with
  | none => simp
  | some b => simp

theorem occCount_append (l1 l2 : List Block) (x : String) :
    occCount (l1 ++ l2) x = occCount l1 x + occCount l2 x := by
  simp [occCount]

theorem occCount_cons (b : Block) (l : List Block) (x : String) :
    occCount (b :: l) x = b.children.count x + occCount l x := by
  simp [occCount]

theorem count_le_occCount {bs : List Block} {b : Block} (h : b ∈ bs)
    (x : String) : b.children.count x ≤ occCount bs x := by
  obtain ⟨s, t, rfl⟩ := List.append_of_mem h
  rw [occCount_append, occCount_cons]
  omega

theorem occCount_pos_exists {bs : List Block} {x : String}
    (h : 0 < occCount bs x) : ∃ b ∈ bs, x ∈ b.children := by
  induction bs with
  | nil => simp [occCount] at h
  | cons b bs ih =>
    rw [occCount_cons] at h
    by_cases hb : x ∈ b.children
    · exact ⟨b, List.mem_cons_self b bs, hb⟩
    · have : b.children.count x = 0 := by
        rw [List.count_eq_zero]
        exact hb
      rw [this] at h
      obtain ⟨b', hb', hx⟩ := ih (by omega)
      exact ⟨b', List.mem_cons_of_mem b hb', hx⟩

theorem occCount_two {bs : List Block} {b1 b2 : Block} {x : String}
    (h1 : b1 ∈ bs) (h2 : b2 ∈ bs) (hne : b1 ≠ b2)
    (hx1 : x ∈ b1.children) (hx2 : x ∈ b2.children) : 2 ≤ occCount bs x := by
  obtain ⟨s, t, rfl⟩ := List.append_of_mem h1
  have hc1 : 1 ≤ b1.children.count x := List.count_pos_iff.mpr hx1
  have hc2 : 1 ≤ b2.children.count x := List.count_pos_iff.mpr hx2
  have h2' : b2 ∈ s ++ t := by
    rcases List.mem_append.mp h2 with hs | ht
    · exact List.mem_append.mpr (Or.inl hs)
    · rcases List.mem_cons.mp ht with rfl | ht'
      · exact absurd rfl hne
      · exact List.mem_append.mpr (Or.inr ht')
  have := count_le_occCount h2' x
  rw [occCount_append, occCount_cons]
  rw [occCount_append] at this
  omega

theorem occCount_sublist_le {l1 l2 : List Block} (h : l1.Sublist l2)
    (x : String) : occCount l1 x ≤ occCount l2 x := by
  induction h with
  | slnil => exact Nat.le_refl _
  | cons b _ ih => rw [occCount_cons]; omega
  | cons₂ b _ ih => rw [occCount_cons, occCount_cons]; omega

theorem forestInv_parent_resolves {bs : List Block} (hinv : ForestInv bs)
    {b : Block} (hb : b ∈ bs) {q : String} (hq : b.parentId = some q) :
    ∃ pb ∈ bs, pb.id = q ∧ b.id ∈ pb.children := by
  obtain ⟨hnd, _, hchild, hocc, _⟩ := hinv
  have h1 : occCount bs b.id = 1 := by
    have := hocc b hb
    rw [hq] at this
    simpa using this
  have hpos : 0 < occCount bs b.id := by omega
  obtain ⟨pb, hpb, hmem⟩ := occCount_pos_exists hpos
  obtain ⟨cb, hcb, hcbid, hcbp⟩ := hchild pb hpb b.id hmem
  have : cb = b := nodup_id_inj hnd hcb hb hcbid
  subst this
  rw [hq] at hcbp
  exact ⟨pb, hpb, (Option.some.inj hcbp).symm, hmem⟩

theorem forestInv_child_dist {bs : List Block} (hinv : ForestInv bs)
    {b : Block} (hb : b ∈ bs) {c : String} (hc : c ∈ b.children) :
    ∃ db, rootDist bs bs.length b.id = some db ∧
      rootDist bs bs.length c = some (db + 1) := by
  obtain ⟨hnd, _, hchild, _, hdist⟩ := hinv
  obtain ⟨cb, hcb, hcbid, hcbp⟩ := hchild b hb c hc
  have hfc : findBlock bs c = some cb := hcbid ▸ mem_findBlock_nodup hnd hcb
  have hdb : ∃ db, rootDist bs bs.length b.id = some db := by
    have := hdist b hb
    cases h : rootDist bs bs.length b.id with
    | none => rw [h] at this; simp at this
    | some db => exact ⟨db, rfl⟩
  obtain ⟨db, hdb⟩ := hdb
  have hsucc : rootDist bs (bs.length + 1) c = some (db + 1) :=
    rootDist_parent_succ hfc hcbp hdb
  have hdc : ∃ dc, rootDist bs bs.length c = some dc := by
    have := hdist cb hcb
    rw [hcbid] at this
    cases h : rootDist bs bs.length c with
    | none => rw [h] at this; simp at this
    | some dc => exact ⟨dc, rfl⟩
  obtain ⟨dc, hdc⟩ := hdc
  have : dc = db + 1 := rootDist_det hdc hsucc
  exact ⟨db, hdb, this ▸ hdc⟩

/-- Rank used to bound all downward recursions: blocks farther from the
root get a smaller rank. -/
def distRank (bs : List Block) (x : String) : Nat :=
  bs.length - ((rootDist bs bs.length x).getD 0 + 1)

theorem forestInv_rank {bs : List Block} (hinv : ForestInv bs) :
    ∀ x c, c ∈ childrenOf bs x → distRank bs c < distRank bs x := by
  intro x c hc
  obtain ⟨b, hfb, hcb⟩ := mem_childrenOf.mp hc
  obtain ⟨hbmem, hbid⟩ := findBlock_mem hfb
  obtain ⟨db, hdb, hdc⟩ := forestInv_child_dist hinv hbmem hcb
  rw [hbid] at hdb
  have hlt : db + 1 < bs.length := rootDist_lt_fuel hdc
  unfold distRank
  rw [hdb, hdc]
  simp only [Option.getD_some]
  omega

theorem forestInv_reaches_dist {bs : List Block} (hinv : ForestInv bs)
    {a y : String} (h : ReachesVia (childrenOf bs) a y) {da : Nat}
    (hda : rootDist bs bs.length a = some da) :
    ∃ dy, rootDist bs bs.length y = some dy ∧ da ≤ dy ∧
      (y = a ∨ da < dy) := by
  induction h generalizing da with
  | refl x => exact ⟨da, hda, Nat.le_refl da, Or.inl rfl⟩
  | @step x b z hb _ ih =>
    obtain ⟨e, hfe, hbe⟩ := mem_childrenOf.mp hb
    obtain ⟨hemem, heid⟩ := findBlock_mem hfe
    obtain ⟨dx, hdx, hdb⟩ := forestInv_child_dist hinv hemem hbe
    rw [heid] at hdx
    have : dx = da := rootDist_det hdx hda
    subst this
    obtain ⟨dz, hdz, hle, _⟩ := ih hdb
    exact ⟨dz, hdz, by omega, Or.inr (by omega)⟩

/-! Helpers about `findIdx?`-based index arithmetic used by the splice
operations, and about axis selection. -/

theorem findIdx?_beq_cons (a : String) (l : List String) (x : String) :
    (a :: l).findIdx? (fun y => y == x) =
      if a = x then some 0
      else (l.findIdx? (fun y => y == x)).map (fun i => i + 1) := by
  by_cases hax : a = x
  · simp [List.findIdx?_cons, hax]
  · simp [List.findIdx?_cons, hax]

theorem findIdx?_beq_none_iff {l : List String} {x : String} :
    l.findIdx? (fun y => y == x) = none ↔ x ∉ l := by
  rw [List.findIdx?_eq_none_iff]
  constructor
  · intro h hx
    have := h x hx
    simp at this
  · intro h y hy
    simp only [beq_eq_false_iff_ne, ne_eq]
    exact fun he => h (he ▸ hy)

theorem findIdx?_beq_some_facts {l : List String} {x : String} :
    ∀ {k : Nat}, l.findIdx? (fun y => y == x) = some k →
      k < l.length ∧ x ∈ l ∧ l.eraseIdx k = l.erase x := by
  induction l with
  | nil => intro k h; simp [List.findIdx?_nil] at h
  | cons a l ih =>
    intro k h
    rw [findIdx?_beq_cons] at h
    by_cases hax : a = x
    · rw [if_pos hax] at h
      cases h
      subst hax
      refine ⟨Nat.succ_pos _, List.mem_cons_self a l, ?_⟩
      simp [List.eraseIdx, List.erase_cons_head]
    · rw [if_neg hax] at h
      cases hk : l.findIdx? (fun y => y == x) with
      | none => rw [hk] at h; simp at h
      | some k' =>
        rw [hk] at h
        simp only [Option.map_some', Option.some.injEq] at h
        subst h
        obtain ⟨hlt, hmem, herase⟩ := ih hk
        refine ⟨by simpa using Nat.succ_lt_succ hlt,
          List.mem_cons_of_mem a hmem, ?_⟩
        have : (a :: l).erase x = a :: l.erase x := by
          rw [List.erase_cons]
          rw [if_neg (by simpa using hax)]
        rw [this]
        simp [List.eraseIdx, herase]

theorem spliceAtIndexOf_of_mem {l : List String} {x : String} (h : x ∈ l) :
    spliceAtIndexOf l x = l.erase x := by
  unfold spliceAtIndexOf
  cases hk : l.findIdx? (fun y => y == x) with
  | none => exact absurd h (findIdx?_beq_none_iff.mp hk)
  | some k => exact (findIdx?_beq_some_facts hk).2.2

theorem reorderChildren_perm {l : List String} {a o : String} {cs : List String}
    (h : reorderChildren l a o = some cs) : cs.Perm l := by
  unfold reorderChildren at h
  cases hfi : l.findIdx? (fun y => y == a) with
  | none => rw [hfi] at h; simp at h
  | some fi =>
    cases hti : l.findIdx? (fun y => y == o) with
    | none => rw [hfi, hti] at h; simp at h
    | some ti =>
      rw [hfi, hti] at h
      simp only [Option.some.injEq] at h
      subst h
      obtain ⟨hfl, hfm, hfe⟩ := findIdx?_beq_some_facts hfi
      obtain ⟨htl, _, _⟩ := findIdx?_beq_some_facts hti
      rw [hfe]
      have hlen : (l.erase a).length = l.length - 1 :=
        List.length_erase_of_mem hfm
      have hti' : ti ≤ (l.erase a).length := by omega
      exact (List.perm_insertIdx a (l.erase a) hti').trans
        (List.perm_cons_erase hfm).symm

theorem axisBlocks_setAxisBlocks (s : BlockState) (ax : Axis) (l : List Block) :
    axisBlocks (setAxisBlocks s ax l) ax = l := by
  cases ax <;> rfl

theorem axisBlocks_setAxisBlocks_ne (s : BlockState) {ax ax' : Axis}
    (h : ax' ≠ ax) (l : List Block) :
    axisBlocks (setAxisBlocks s ax l) ax' = axisBlocks s ax' := by
  cases ax <;> cases ax' <;> first | rfl | exact absurd rfl h

theorem setAxisBlocks_self (s : BlockState) (ax : Axis) :
    setAxisBlocks s ax (axisBlocks s ax) = s := by
  cases ax <;> rfl

/-- Claim C7: each mutation is a defensive no-op on missing identifiers —
a missing parent or a missing child index aborts `reorderBlock`, a missing
id aborts `updateLabel` and `removeBlock`, a missing parent aborts
`addBlock`; in each case the whole state is returned unchanged. -/
theorem claim_C7 (s : BlockState) (axis : Axis) :
    (∀ pid a o, (findBlock (axisBlocks s axis) pid = none ∨
        ∃ pb, findBlock (axisBlocks s axis) pid = some pb ∧
          (a ∉ pb.children ∨ o ∉ pb.children)) →
      reorderBlock axis pid a o s = s) ∧
    (∀ i lb, findBlock (axisBlocks s axis) i = none →
      updateLabel axis i lb s = s) ∧
    (∀ pid blk, findBlock (axisBlocks s axis) pid = none →
      addBlock axis pid blk s = s) ∧
    (∀ i, findBlock (axisBlocks s axis) i = none →
      removeBlock axis i s = s) := by
  refine ⟨?_, ?_, ?_, ?_⟩
  · intro pid a o h
    unfold reorderBlock
    rcases h with h | ⟨pb, hpb, hmiss⟩
    · simp only [reorderAxis, h, setAxisBlocks_self]
    · have hnone : reorderChildren pb.children a o = none := by
        unfold reorderChildren
        rcases hmiss with hma | hmo
        · rw [findIdx?_beq_none_iff.mpr hma]
        · rw [findIdx?_beq_none_iff.mpr hmo]
          cases pb.children.findIdx? (fun y => y == a) <;> rfl
      simp only [reorderAxis, hpb, hnone, setAxisBlocks_self]
  · intro i lb h
    unfold updateLabel
    simp only [updateLabelAxis, h, setAxisBlocks_self]
  · intro pid blk h
    unfold addBlock
    simp only [addAxis, h, setAxisBlocks_self]
  · intro i h
    unfold removeBlock
    simp only [removeAxis, h, setAxisBlocks_self]

/-- Witness for claim C7 at a concrete state and missing identifiers. -/
theorem claim_C7_witness :
    reorderBlock Axis.row "NOPE" "ROW_A" "ROW_B" initialState = initialState ∧
    updateLabel Axis.row "NOPE" "x" initialState = initialState ∧
    addBlock Axis.column "NOPE"
      { id := "N", label := "n", parentId := some "NOPE", children := [] }
      initialState = initialState ∧
    removeBlock Axis.column "NOPE" initialState = initialState := by
  obtain ⟨h1, h2, _, _⟩ := claim_C7 initialState Axis.row
  obtain ⟨_, _, h3, h4⟩ := claim_C7 initialState Axis.column
  exact ⟨h1 "NOPE" "ROW_A" "ROW_B" (Or.inl (by decide)),
    h2 "NOPE" "x" (by decide), h3 "NOPE" _ (by decide), h4 "NOPE" (by decide)⟩

/-- Claim C8: with the parent present, `addBlock` appends the new id to
the parent's child sequence and the new block to the end of the flat
list, leaving every other block (and the other axis) unchanged; with the
parent absent the insert is silently dropped. -/
theorem claim_C8 (s : BlockState) (axis : Axis) (pid : String) (blk : Block) :
    (∀ pb, findBlock (axisBlocks s axis) pid = some pb →
      ∃ l1 l2, axisBlocks s axis = l1 ++ pb :: l2 ∧
        (∀ q ∈ l1, q.id ≠ pid) ∧
        axisBlocks (addBlock axis pid blk s) axis =
          l1 ++ { pb with children := pb.children ++ [blk.id] } :: l2 ++ [blk] ∧
        (∀ ax', ax' ≠ axis →
          axisBlocks (addBlock axis pid blk s) ax' = axisBlocks s ax')) ∧
    (findBlock (axisBlocks s axis) pid = none → addBlock axis pid blk s = s) := by
  constructor
  · intro pb hpb
    obtain ⟨l1, l2, hsplit, hl1, hupd⟩ :=
      @updateFirst_split (fun b => b.id == pid)
        (fun b => { b with children := b.children ++ [blk.id] })
        (axisBlocks s axis) pb hpb
    refine ⟨l1, l2, hsplit, ?_, ?_, ?_⟩
    · intro q hq
      have := hl1 q hq
      simpa using this
    · unfold addBlock
      rw [axisBlocks_setAxisBlocks]
      simp only [addAxis, hpb, hupd]
    · intro ax' hax
      unfold addBlock
      rw [axisBlocks_setAxisBlocks_ne s hax]
  · intro h
    unfold addBlock
    simp only [addAxis, h, setAxisBlocks_self]

/-- The concrete parent block used in the witness for claim C8. -/
def rowABlock : Block :=
  { id := "ROW_A", label := "Row-A", parentId := some "ROW_ROOT",
    children := ["ROW_A1", "ROW_A2"] }

/-- The concrete fresh block used in witnesses. -/
def freshBlock : Block :=
  { id := "N", label := "n", parentId := some "ROW_A", children := [] }

/-- Witness for claim C8 at a concrete state. -/
theorem claim_C8_witness :
    ∃ l1 l2, initialState.rowBlocks = l1 ++ rowABlock :: l2 ∧
      (∀ q ∈ l1, q.id ≠ "ROW_A") ∧
      axisBlocks (addBlock Axis.row "ROW_A" freshBlock initialState) Axis.row =
        l1 ++ { rowABlock with
                  children := rowABlock.children ++ [freshBlock.id] } ::
          l2 ++ [freshBlock] ∧
      (∀ ax', ax' ≠ Axis.row →
        axisBlocks (addBlock Axis.row "ROW_A" freshBlock initialState) ax' =
          axisBlocks initialState ax') := by
  have h := (claim_C8 initialState Axis.row "ROW_A" freshBlock).1 rowABlock
    (by decide)
  exact h

/-- Pointwise `Forall₂` for a list whose single distinguished entry is
replaced and all other entries kept. -/
theorem forall₂_update {R : Block → Block → Prop} {l1 l2 : List Block}
    {b b' : Block} (h1 : ∀ x ∈ l1, R x x) (hb : R b b')
    (h2 : ∀ x ∈ l2, R x x) :
    List.Forall₂ R (l1 ++ b :: l2) (l1 ++ b' :: l2) := by
  induction l1 with
  | nil => exact List.Forall₂.cons hb (List.forall₂_same.mpr h2)
  | cons x l1 ih =>
    exact List.Forall₂.cons (h1 x (List.mem_cons_self x l1))
      (ih (fun y hy => h1 y (List.mem_cons_of_mem x hy)))

/-- Claim C4: with the parent present and both identifiers present in its
child sequence, `reorderBlock` removes `activeId` at its index and
re-inserts it at `overId`'s original index; with the parent or either
identifier absent it is a no-op. -/
theorem claim_C4 (s : BlockState) (axis : Axis) (pid a o : String) :
    (∀ pb fi ti, findBlock (axisBlocks s axis) pid = some pb →
      pb.children.findIdx? (fun y => y == a) = some fi →
      pb.children.findIdx? (fun y => y == o) = some ti →
      ∃ pb', findBlock (axisBlocks (reorderBlock axis pid a o s) axis) pid =
          some pb' ∧
        pb'.children = (pb.children.eraseIdx fi).insertIdx ti a ∧
        pb'.id = pb.id ∧ pb'.label = pb.label ∧ pb'.parentId = pb.parentId) ∧
    ((findBlock (axisBlocks s axis) pid = none ∨
        ∃ pb, findBlock (axisBlocks s axis) pid = some pb ∧
          (a ∉ pb.children ∨ o ∉ pb.children)) →
      reorderBlock axis pid a o s = s) := by
  constructor
  · intro pb fi ti hpb hfi hti
    have hcs : reorderChildren pb.children a o =
        some ((pb.children.eraseIdx fi).insertIdx ti a) := by
      unfold reorderChildren
      rw [hfi, hti]
    unfold reorderBlock
    rw [axisBlocks_setAxisBlocks]
    simp only [reorderAxis, hpb, hcs]
    rw [@findBlock_updateFirst_id pid
      (fun b => { b with children := (pb.children.eraseIdx fi).insertIdx ti a })
      (fun b => rfl) (axisBlocks s axis) pid, if_pos rfl, hpb]
    exact ⟨_, rfl, rfl, rfl, rfl, rfl⟩
  · intro h
    unfold reorderBlock
    rcases h with h | ⟨pb, hpb, hmiss⟩
    · simp only [reorderAxis, h, setAxisBlocks_self]
    · have hnone : reorderChildren pb.children a o = none := by
        unfold reorderChildren
        rcases hmiss with hma | hmo
        · rw [findIdx?_beq_none_iff.mpr hma]
        · rw [findIdx?_beq_none_iff.mpr hmo]
          cases pb.children.findIdx? (fun y => y == a) <;> rfl
      simp only [reorderAxis, hpb, hnone, setAxisBlocks_self]

/-- The root block of the initial row axis, used by witnesses. -/
def rowRootBlock : Block :=
  { id := "ROW_ROOT", label := "RowRoot", parentId := none,
    children := ["ROW_A", "ROW_B"] }

/-- Witness for claim C4 at a concrete state: `ROW_A` moves to the
position of `ROW_B`. -/
theorem claim_C4_witness :
    ∃ pb', findBlock
        (axisBlocks (reorderBlock Axis.row "ROW_ROOT" "ROW_A" "ROW_B"
          initialState) Axis.row) "ROW_ROOT" = some pb' ∧
      pb'.children = ((["ROW_A", "ROW_B"] : List String).eraseIdx 0).insertIdx
        1 "ROW_A" ∧
      pb'.id = rowRootBlock.id ∧ pb'.label = rowRootBlock.label ∧
      pb'.parentId = rowRootBlock.parentId :=
  (claim_C4 initialState Axis.row "ROW_ROOT" "ROW_A" "ROW_B").1
    rowRootBlock 0 1 (by decide) (by decide) (by decide)

/-- Claim C5: `reorderBlock` preserves, entry by entry, the identifier,
label and parent of every block, permutes at most the child set of the
addressed parent (membership is preserved), leaves every block other
than the parent entirely unchanged, and never touches the other axis. -/
theorem claim_C5 (s : BlockState) (axis : Axis) (pid a o : String) :
    (∀ ax', ax' ≠ axis →
      axisBlocks (reorderBlock axis pid a o s) ax' = axisBlocks s ax') ∧
    List.Forall₂ (fun bOld bNew : Block =>
        bNew.id = bOld.id ∧ bNew.label = bOld.label ∧
        bNew.parentId = bOld.parentId ∧
        (∀ x, x ∈ bNew.children ↔ x ∈ bOld.children) ∧
        (bOld.id ≠ pid → bNew = bOld))
      (axisBlocks s axis) (axisBlocks (reorderBlock axis pid a o s) axis) := by
  constructor
  · intro ax' hax
    unfold reorderBlock
    rw [axisBlocks_setAxisBlocks_ne s hax]
  · unfold reorderBlock
    rw [axisBlocks_setAxisBlocks]
    have hrefl : ∀ x ∈ axisBlocks s axis,
        (fun bOld bNew : Block =>
          bNew.id = bOld.id ∧ bNew.label = bOld.label ∧
          bNew.parentId = bOld.parentId ∧
          (∀ y, y ∈ bNew.children ↔ y ∈ bOld.children) ∧
          (bOld.id ≠ pid → bNew = bOld)) x x := by
      intro x _
      exact ⟨rfl, rfl, rfl, fun _ => Iff.rfl, fun _ => rfl⟩
    cases hpb : findBlock (axisBlocks s axis) pid with
    | none =>
      simp only [reorderAxis, hpb]
      exact List.forall₂_same.mpr hrefl
    | some pb =>
      cases hcs : reorderChildren pb.children a o with
      | none =>
        simp only [reorderAxis, hpb, hcs]
        exact List.forall₂_same.mpr hrefl
      | some cs =>
        simp only [reorderAxis, hpb, hcs]
        obtain ⟨l1, l2, hsplit, hl1, hupd⟩ :=
          @updateFirst_split (fun b => b.id == pid)
            (fun b => { b with children := cs }) (axisBlocks s axis) pb hpb
        rw [hupd]
        have hpbid : pb.id = pid := by
          simpa using List.find?_some hpb
        have hperm : cs.Perm pb.children := reorderChildren_perm hcs
        rw [hsplit]
        refine forall₂_update ?_ ?_ ?_
        · intro x hx
          exact ⟨rfl, rfl, rfl, fun _ => Iff.rfl, fun _ => rfl⟩
        · refine ⟨rfl, rfl, rfl, fun y => hperm.mem_iff, ?_⟩
          intro hne
          exact absurd hpbid hne
        · intro x hx
          exact ⟨rfl, rfl, rfl, fun _ => Iff.rfl, fun _ => rfl⟩

/-- Witness for claim C5: the other-axis clause instantiated concretely. -/
theorem claim_C5_witness :
    axisBlocks (reorderBlock Axis.row "ROW_ROOT" "ROW_A" "ROW_B" initialState)
        Axis.column = axisBlocks initialState Axis.column ∧
    List.Forall₂ (fun bOld bNew : Block =>
        bNew.id = bOld.id ∧ bNew.label = bOld.label ∧
        bNew.parentId = bOld.parentId ∧
        (∀ x, x ∈ bNew.children ↔ x ∈ bOld.children) ∧
        (bOld.id ≠ "ROW_ROOT" → bNew = bOld))
      (axisBlocks initialState Axis.row)
      (axisBlocks (reorderBlock Axis.row "ROW_ROOT" "ROW_A" "ROW_B"
        initialState) Axis.row) := by
  obtain ⟨h1, h2⟩ := claim_C5 initialState Axis.row "ROW_ROOT" "ROW_A" "ROW_B"
  exact ⟨h1 Axis.column (by decide), h2⟩

/-! Lemmas about the page helpers: `mapGet`, `seqOption`, `leafCount`,
`flattenLeaves`. -/

theorem mapGet_mem {m : List Block} {x : String} {b : Block}
    (h : mapGet m x = some b) : b ∈ m ∧ b.id = x := by
  unfold mapGet at h
  refine ⟨?_, ?_⟩
  · exact List.mem_reverse.mp (List.mem_of_find?_eq_some h)
  · simpa using List.find?_some h

theorem mem_childrenOfMap {m : List Block} {x c : String} :
    c ∈ childrenOfMap m x ↔ ∃ b, mapGet m x = some b ∧ c ∈ b.children := by
  unfold childrenOfMap
  cases h : mapGet m x with
  | none => simp
  | some b => simp

theorem seqOption_congr {α β : Type} {g h : α → Option β} :
    ∀ {l : List α}, (∀ a ∈ l, g a = h a) → seqOption g l = seqOption h l := by
  intro l
  induction l with
  | nil => intro _; rfl
  | cons a l ih =>
    intro hag
    simp only [seqOption]
    rw [hag a (List.mem_cons_self a l), ih (fun x hx => hag x (List.mem_cons_of_mem a hx))]

theorem seqOption_isSome {α β : Type} {g : α → Option β} :
    ∀ {l : List α}, (∀ a ∈ l, (g a).isSome = true) →
      (seqOption g l).isSome = true := by
  intro l
  induction l with
  | nil => intro _; rfl
  | cons a l ih =>
    intro hall
    simp only [seqOption]
    cases hga : g a with
    | none =>
      have := hall a (List.mem_cons_self a l)
      rw [hga] at this
      simp at this
    | some b =>
      cases hrest : seqOption g l with
      | none =>
        have := ih (fun x hx => hall x (List.mem_cons_of_mem a hx))
        rw [hrest] at this
        simp at this
      | some bs => rfl

theorem seqOption_map_rel {α β γ : Type} {g : α → Option β} {h : α → Option γ}
    {φ : γ → β} :
    ∀ {l : List α}, (∀ a ∈ l, g a = (h a).map φ) →
      seqOption g l = (seqOption h l).map (List.map φ) := by
  intro l
  induction l with
  | nil => intro _; rfl
  | cons a l ih =>
    intro hag
    simp only [seqOption]
    rw [hag a (List.mem_cons_self a l),
      ih (fun x hx => hag x (List.mem_cons_of_mem a hx))]
    cases h a with
    | none => rfl
    | some c =>
      cases seqOption h l with
      | none => rfl
      | some cs => rfl

theorem foldl_add_eq_sum (l : List Nat) :
    l.foldl (fun s c => s + c) 0 = l.sum := by
  have main : ∀ (l : List Nat) (n : Nat),
      l.foldl (fun s c => s + c) n = n + l.sum := by
    intro l
    induction l with
    | nil => intro n; simp
    | cons a l ih =>
      intro n
      simp only [List.foldl_cons, List.sum_cons, ih]
      omega
  simpa using main l 0

/-- The leaf count of a subtree is the length of its flattened leaf list,
at every fuel, crashes included. -/
theorem leafCount_eq_length_flattenLeaves (m : List Block) :
    ∀ (f : Nat) (x : String),
      leafCount m f x = (flattenLeaves m f x).map List.length := by
  intro f
  induction f with
  | zero => intro x; rfl
  | succ g ih =>
    intro x
    simp only [leafCount, flattenLeaves]
    cases mapGet m x with
    | none => rfl
    | some b =>
      by_cases hemp : b.children.isEmpty = true
      · simp [hemp]
      · have hemp' : b.children.isEmpty = false := by
          cases hb : b.children.isEmpty
          · rfl
          · exact absurd hb hemp
        simp only [hemp', Bool.false_eq_true, if_false]
        rw [seqOption_map_rel (fun c _ => ih c)]
        cases hs : seqOption (flattenLeaves m g) b.children with
        | none => rfl
        | some ls => simp [foldl_add_eq_sum, List.length_flatten]

theorem flattenLeaves_stab {m : List Block} {i : String} {rank : String → Nat}
    (hrank : ∀ x c, ReachesVia (childrenOfMap m) i x → c ∈ childrenOfMap m x →
      rank c < rank x) :
    ∀ {f : Nat} {x : String}, ReachesVia (childrenOfMap m) i x → rank x < f →
      flattenLeaves m f x = flattenLeaves m (f+1) x := by
  intro f
  induction f with
  | zero => intro x _ h; omega
  | succ g ih =>
    intro x hx hf
    simp only [flattenLeaves]
    cases hm : mapGet m x with
    | none => rfl
    | some b =>
      by_cases hemp : b.children.isEmpty = true
      · simp [hemp]
      · have hemp' : b.children.isEmpty = false := by
          cases hb : b.children.isEmpty
          · rfl
          · exact absurd hb hemp
        simp only [hemp', Bool.false_eq_true, if_false]
        congr 1
        refine seqOption_congr (fun c hc => ?_)
        have hcm : c ∈ childrenOfMap m x := by
          rw [mem_childrenOfMap]
          exact ⟨b, hm, hc⟩
        have hrc : rank c < rank x := hrank x c hx hcm
        exact ih (reachesVia_snoc hx hcm) (by omega)

theorem flattenLeaves_stab_ge {m : List Block} {i : String}
    {rank : String → Nat}
    (hrank : ∀ x c, ReachesVia (childrenOfMap m) i x → c ∈ childrenOfMap m x →
      rank c < rank x)
    {f g : Nat} {x : String} (hx : ReachesVia (childrenOfMap m) i x)
    (hf : rank x < f) (hfg : f ≤ g) :
    flattenLeaves m g x = flattenLeaves m f x := by
  induction g with
  | zero => omega
  | succ g' ih =>
    rcases Nat.lt_or_ge f (g'+1) with hlt | hge
    · rw [← flattenLeaves_stab hrank hx (show rank x < g' by omega)]
      exact ih (by omega)
    · have : f = g' + 1 := by omega
      rw [this]

theorem flattenLeaves_isSome {m : List Block} {i : String}
    {rank : String → Nat}
    (hres : ∀ b ∈ m, ∀ c ∈ b.children, (mapGet m c).isSome = true)
    (hrank : ∀ x c, ReachesVia (childrenOfMap m) i x → c ∈ childrenOfMap m x →
      rank c < rank x) :
    ∀ {f : Nat} {x : String}, ReachesVia (childrenOfMap m) i x →
      (mapGet m x).isSome = true → rank x < f →
      (flattenLeaves m f x).isSome = true := by
  intro f
  induction f with
  | zero => intro x _ _ h; omega
  | succ g ih =>
    intro x hx hsome hf
    simp only [flattenLeaves]
    cases hm : mapGet m x with
    | none => rw [hm] at hsome; simp at hsome
    | some b =>
      by_cases hemp : b.children.isEmpty = true
      · simp [hemp]
      · have hemp' : b.children.isEmpty = false := by
          cases hb : b.children.isEmpty
          · rfl
          · exact absurd hb hemp
        simp only [hemp', Bool.false_eq_true, if_false]
        have hseq : (seqOption (flattenLeaves m g) b.children).isSome = true := by
          refine seqOption_isSome (fun c hc => ?_)
          have hbm : b ∈ m ∧ b.id = x := mapGet_mem hm
          have hcm : c ∈ childrenOfMap m x := by
            rw [mem_childrenOfMap]
            exact ⟨b, hm, hc⟩
          have hrc : rank c < rank x := hrank x c hx hcm
          exact ih (reachesVia_snoc hx hcm) (hres b hbm.1 c hc) (by omega)
        cases hs : seqOption (flattenLeaves m g) b.children with
        | none => rw [hs] at hseq; simp at hseq
        | some ls => simp

/-- Claim C6: over a map whose child identifiers all resolve and whose
subtree below `i` is acyclic (witnessed by a rank decreasing along child
edges of reachable nodes), `leafCount` returns exactly the length of the
list returned by `flattenLeaves`, both being defined. -/
theorem claim_C6 (m : List Block) (i : String) (rank : String → Nat)
    (hres : ∀ b ∈ m, ∀ c ∈ b.children, (mapGet m c).isSome = true)
    (hrank : ∀ b ∈ m, ReachesVia (childrenOfMap m) i b.id →
      ∀ c ∈ b.children, rank c < rank b.id)
    (hid : (mapGet m i).isSome = true) :
    ∃ n ls, leafCount m (rank i + 1) i = some n ∧
      flattenLeaves m (rank i + 1) i = some ls ∧ n = ls.length := by
  have hrankg : ∀ x c, ReachesVia (childrenOfMap m) i x →
      c ∈ childrenOfMap m x → rank c < rank x := by
    intro x c hx hc
    obtain ⟨b, hm, hcb⟩ := mem_childrenOfMap.mp hc
    obtain ⟨hbm, hbid⟩ := mapGet_mem hm
    have := hrank b hbm (hbid ▸ hx) c hcb
    rwa [hbid] at this
  have hflat : (flattenLeaves m (rank i + 1) i).isSome = true :=
    flattenLeaves_isSome hres hrankg (ReachesVia.refl i) hid (by omega)
  cases hls : flattenLeaves m (rank i + 1) i with
  | none => rw [hls] at hflat; simp at hflat
  | some ls =>
    refine ⟨ls.length, ls, ?_, rfl, rfl⟩
    rw [leafCount_eq_length_flattenLeaves, hls]
    rfl

/-- The concrete two-node map used in witnesses for the page helpers. -/
def leafMapW : List Block :=
  [ { id := "r", label := "R", parentId := none, children := ["l"] },
    { id := "l", label := "L", parentId := some "r", children := [] } ]

/-- The concrete rank function used in witnesses for the page helpers. -/
def rankW : String → Nat := fun x => if x = "r" then 1 else 0

/-- Witness for claim C6 on a concrete two-node map. -/
theorem claim_C6_witness :
    ∃ n ls, leafCount leafMapW (rankW "r" + 1) "r" = some n ∧
      flattenLeaves leafMapW (rankW "r" + 1) "r" = some ls ∧
      n = ls.length := by
  have h : ∀ b ∈ leafMapW, ∀ c ∈ b.children, rankW c < rankW b.id := by decide
  exact claim_C6 leafMapW "r" rankW (by decide)
    (fun b hb _ c hc => h b hb c hc) (by decide)

/-- Claim C10: over a map whose child identifiers all resolve and whose
children graph is acyclic (witnessed by a rank decreasing along child
edges), `leafCount`, `flattenLeaves` and the depth-first collection of
`removeBlock` are total: beyond the fuel bound `rank i + 1` they return a
fixed defined value. -/
theorem claim_C10 (m : List Block) (i : String) (rank : String → Nat)
    (hres : ∀ b ∈ m, ∀ c ∈ b.children, (mapGet m c).isSome = true)
    (hrank : ∀ b ∈ m, ∀ c ∈ b.children, rank c < rank b.id)
    (hid : (mapGet m i).isSome = true) :
    ∃ n ls, ∀ f, rank i < f →
      leafCount m f i = some n ∧ flattenLeaves m f i = some ls ∧
      dfsCollect m f i = dfsCollect m (rank i + 1) i := by
  have hrankM : ∀ x c, ReachesVia (childrenOfMap m) i x →
      c ∈ childrenOfMap m x → rank c < rank x := by
    intro x c _ hc
    obtain ⟨b, hm, hcb⟩ := mem_childrenOfMap.mp hc
    obtain ⟨hbm, hbid⟩ := mapGet_mem hm
    have := hrank b hbm c hcb
    rwa [hbid] at this
  have hrankF : ∀ x c, ReachesVia (childrenOf m) i x →
      c ∈ childrenOf m x → rank c < rank x := by
    intro x c _ hc
    obtain ⟨b, hm, hcb⟩ := mem_childrenOf.mp hc
    obtain ⟨hbm, hbid⟩ := findBlock_mem hm
    have := hrank b hbm c hcb
    rwa [hbid] at this
  have hflat : (flattenLeaves m (rank i + 1) i).isSome = true :=
    flattenLeaves_isSome hres hrankM (ReachesVia.refl i) hid (by omega)
  cases hls : flattenLeaves m (rank i + 1) i with
  | none => rw [hls] at hflat; simp at hflat
  | some ls =>
    refine ⟨ls.length, ls, ?_⟩
    intro f hf
    have hstab : flattenLeaves m f i = flattenLeaves m (rank i + 1) i :=
      flattenLeaves_stab_ge hrankM (ReachesVia.refl i) (by omega) (by omega)
    refine ⟨?_, ?_, ?_⟩
    · rw [leafCount_eq_length_flattenLeaves, hstab, hls]
      rfl
    · rw [hstab, hls]
    · rw [dfsCollect_eq_dfsVia, dfsCollect_eq_dfsVia]
      exact dfsVia_stab_ge hrankF (ReachesVia.refl i) (by omega) (by omega)

/-- Witness for claim C10 on a concrete two-node map. -/
theorem claim_C10_witness :
    ∃ n ls, ∀ f, rankW "r" < f →
      leafCount leafMapW f "r" = some n ∧
      flattenLeaves leafMapW f "r" = some ls ∧
      dfsCollect leafMapW f "r" = dfsCollect leafMapW (rankW "r" + 1) "r" := by
  have h : ∀ b ∈ leafMapW, ∀ c ∈ b.children, rankW c < rankW b.id := by decide
  exact claim_C10 leafMapW "r" rankW (by decide) h (by decide)

/-! Bridging lemmas for claim C9: JS `Map` lookup versus `find`, and
dnd-kit's `arrayMove` versus the store's double splice. -/

theorem idsOf_reverse (bs : List Block) :
    idsOf bs.reverse = (idsOf bs).reverse := by
  simp [idsOf]

theorem mapGet_eq_findBlock {bs : List Block} (hnd : (idsOf bs).Nodup)
    (x : String) : mapGet bs x = findBlock bs x := by
  cases h : findBlock bs x with
  | none =>
    have hx : x ∉ idsOf bs := findBlock_eq_none_iff.mp h
    show findBlock bs.reverse x = none
    rw [findBlock_eq_none_iff, idsOf_reverse]
    intro hmem
    exact hx (List.mem_reverse.mp hmem)
  | some c =>
    obtain ⟨hc, hcid⟩ := findBlock_mem h
    have hndr : (idsOf bs.reverse).Nodup := by
      rw [idsOf_reverse]
      exact List.nodup_reverse.mpr hnd
    have : findBlock bs.reverse c.id = some c :=
      mem_findBlock_nodup hndr (List.mem_reverse.mpr hc)
    rw [← hcid]
    exact this

theorem findIdx?_beq_isSome_of_mem {l : List String} {x : String}
    (h : x ∈ l) : ∃ k, l.findIdx? (fun y => y == x) = some k := by
  cases hk : l.findIdx? (fun y => y == x) with
  | none => exact absurd h (findIdx?_beq_none_iff.mp hk)
  | some k => exact ⟨k, rfl⟩

theorem findIdx?_beq_get {l : List String} {x : String} {k : Nat}
    (h : l.findIdx? (fun y => y == x) = some k) : l.get? k = some x := by
  have := List.findIdx?_of_eq_some h
  cases hk : l[k]? with
  | none => rw [hk] at this; simp at this
  | some z =>
    rw [hk] at this
    have hz : z = x := by simpa using this
    rw [List.get?_eq_getElem?, hk, hz]

theorem arrayMove_of_idx {l : List String} {x o : String} {fi ti : Nat}
    (hfi : l.findIdx? (fun y => y == x) = some fi)
    (hti : l.findIdx? (fun y => y == o) = some ti) :
    arrayMove l (jsIndexOf l x) (jsIndexOf l o) =
      (l.eraseIdx fi).insertIdx ti x := by
  obtain ⟨hfl, _, _⟩ := findIdx?_beq_some_facts hfi
  obtain ⟨htl, _, _⟩ := findIdx?_beq_some_facts hti
  have hjx : jsIndexOf l x = (fi : Int) := by unfold jsIndexOf; rw [hfi]
  have hjo : jsIndexOf l o = (ti : Int) := by unfold jsIndexOf; rw [hti]
  have hget : l.get? fi = some x := findIdx?_beq_get hfi
  have hsf : spliceIndex l.length (fi : Int) = fi := by
    unfold spliceIndex
    rw [if_neg (by omega)]
    simp
    omega
  have hlen1 : (l.eraseIdx fi).length = l.length - 1 := by
    rw [List.length_eraseIdx]
    rw [if_pos hfl]
  have hst : spliceIndex (l.eraseIdx fi).length (ti : Int) = ti := by
    unfold spliceIndex
    rw [if_neg (by omega)]
    simp
    omega
  rw [hjx, hjo]
  simp only [arrayMove, hsf, hget, hst]

theorem findBlock_map_id_preserving {g : Block → Block}
    (hg : ∀ b, (g b).id = b.id) (bs : List Block) (y : String) :
    findBlock (bs.map g) y = (findBlock bs y).map g := by
  induction bs with
  | nil => rfl
  | cons b bs ih =>
    show (g b :: bs.map g).find? (fun c => c.id == y) =
      ((b :: bs).find? (fun c => c.id == y)).map g
    rw [List.find?_cons, List.find?_cons]
    cases hpred : (b.id == y) with
    | true =>
      rw [show ((g b).id == y) = true by rw [hg]; exact hpred]
      rfl
    | false =>
      rw [show ((g b).id == y) = false by rw [hg]; exact hpred]
      exact ih

/-- Claim C9: on a forest, for two distinct siblings the page's
`arrayMove`-based `reorder` and the store's splice-based `reorderBlock`
produce the same child sequence for the common parent. -/
theorem claim_C9 (bs : List Block) (hinv : ForestInv bs)
    {aId bId pid : String} {a b : Block}
    (ha : findBlock bs aId = some a) (hb : findBlock bs bId = some b)
    (hap : a.parentId = some pid) (hbp : b.parentId = some pid)
    (hne : aId ≠ bId) :
    ∃ out, reorder bs aId bId = some out ∧
      childrenOf out pid = childrenOf (reorderAxis pid aId bId bs) pid := by
  have hnd := hinv.1
  obtain ⟨hamem, haid⟩ := findBlock_mem ha
  obtain ⟨hbmem, hbid⟩ := findBlock_mem hb
  obtain ⟨pa, hpamem, hpaid, haIn⟩ := forestInv_parent_resolves hinv hamem hap
  obtain ⟨pb2, hpbmem, hpbid, hbIn⟩ := forestInv_parent_resolves hinv hbmem hbp
  have hpp : pa = pb2 :=
    (nodup_id_inj hnd hpbmem hpamem (by rw [hpbid, hpaid])).symm
  subst hpp
  have hfp : findBlock bs pid = some pa := by
    rw [← hpaid]
    exact mem_findBlock_nodup hnd hpamem
  have hmga : mapGet bs aId = some a := by
    rw [mapGet_eq_findBlock hnd]; exact ha
  have hmgb : mapGet bs bId = some b := by
    rw [mapGet_eq_findBlock hnd]; exact hb
  have hmgp : mapGet bs pid = some pa := by
    rw [mapGet_eq_findBlock hnd]; exact hfp
  have haIn' : aId ∈ pa.children := haid ▸ haIn
  have hbIn' : bId ∈ pa.children := hbid ▸ hbIn
  obtain ⟨fi, hfi⟩ := findIdx?_beq_isSome_of_mem haIn'
  obtain ⟨ti, hti⟩ := findIdx?_beq_isSome_of_mem hbIn'
  have hmove : arrayMove pa.children (jsIndexOf pa.children a.id)
      (jsIndexOf pa.children b.id) =
      (pa.children.eraseIdx fi).insertIdx ti aId := by
    rw [haid, hbid]
    exact arrayMove_of_idx hfi hti
  have hpage : reorder bs aId bId = some (bs.map (fun bl =>
      if bl.id == pa.id then
        { bl with children := (pa.children.eraseIdx fi).insertIdx ti aId }
      else bl)) := by
    simp only [reorder, hmga, hmgb, hap, hbp, beq_self_eq_true, if_true, hmgp,
      hmove]
  refine ⟨_, hpage, ?_⟩
  have hgid : ∀ bl : Block, ((fun bl =>
      if bl.id == pa.id then
        { bl with children := (pa.children.eraseIdx fi).insertIdx ti aId }
      else bl) bl).id = bl.id := by
    intro bl
    by_cases h : (bl.id == pa.id) = true
    · simp [h]
    · simp [h]
  have hcs : reorderChildren pa.children aId bId =
      some ((pa.children.eraseIdx fi).insertIdx ti aId) := by
    unfold reorderChildren
    rw [hfi, hti]
  unfold childrenOf
  rw [findBlock_map_id_preserving hgid bs pid, hfp]
  simp only [reorderAxis, hfp, hcs]
  rw [@findBlock_updateFirst_id pid
    (fun bl => { bl with children := (pa.children.eraseIdx fi).insertIdx ti aId })
    (fun bl => rfl) bs pid, if_pos rfl, hfp]
  simp only [Option.map_some', Option.elim]
  rw [hpaid]
  simp

/-- The `ROW_B` block of the initial row axis, used by witnesses. -/
def rowBBlock : Block :=
  { id := "ROW_B", label := "Row-B", parentId := some "ROW_ROOT",
    children := ["ROW_B1"] }

/-- Witness for claim C9 on the initial row tree. -/
theorem claim_C9_witness :
    ∃ out, reorder initialState.rowBlocks "ROW_A" "ROW_B" = some out ∧
      childrenOf out "ROW_ROOT" =
        childrenOf (reorderAxis "ROW_ROOT" "ROW_A" "ROW_B"
          initialState.rowBlocks) "ROW_ROOT" :=
  claim_C9 initialState.rowBlocks (by decide)
    (show findBlock initialState.rowBlocks "ROW_A" = some rowABlock by decide)
    (show findBlock initialState.rowBlocks "ROW_B" = some rowBBlock by decide)
    (by decide) (by decide) (by decide)

/-! Machinery for `removeAxis` under the forest invariant. -/

theorem jsTruthy_some_ne {p : String} (h : p ≠ "") :
    jsTruthy (some p) = true := by
  unfold jsTruthy
  simpa using h

theorem idsOf_filter_pred (q : String → Bool) (l : List Block) :
    idsOf (l.filter (fun b => q b.id)) = (idsOf l).filter q := by
  induction l with
  | nil => rfl
  | cons b l ih =>
    simp only [idsOf] at ih ⊢
    cases hq : q b.id with
    | true => simp [List.filter_cons, hq, ih]
    | false => simp [List.filter_cons, hq, ih]

theorem rootDist_congr {bs bs' : List Block}
    (hag : ∀ y, (findBlock bs' y).map Block.parentId =
      (findBlock bs y).map Block.parentId) :
    ∀ (f : Nat) (y : String), rootDist bs' f y = rootDist bs f y := by
  intro f
  induction f with
  | zero => intro y; rfl
  | succ g ih =>
    intro y
    have h := hag y
    cases hfb : findBlock bs y with
    | none =>
      rw [hfb] at h
      cases hfb' : findBlock bs' y with
      | none => simp [rootDist, hfb, hfb']
      | some b' => rw [hfb'] at h; simp at h
    | some b =>
      rw [hfb] at h
      cases hfb' : findBlock bs' y with
      | none => rw [hfb'] at h; simp at h
      | some b' =>
        rw [hfb'] at h
        simp only [Option.map_some', Option.some.injEq] at h
        simp only [rootDist, hfb, hfb', h]
        cases b.parentId with
        | none => rfl
        | some q =>
          show Option.map (fun d => d + 1) (rootDist bs' g q) =
            Option.map (fun d => d + 1) (rootDist bs g q)
          rw [ih q]

theorem findBlock_filter_nodup {bs : List Block} (hnd : (idsOf bs).Nodup)
    {q : Block → Bool} {y : String} {b : Block} (h : findBlock bs y = some b)
    (hq : q b = true) : findBlock (bs.filter q) y = some b := by
  obtain ⟨hmem, hid⟩ := findBlock_mem h
  have hnd' : (idsOf (bs.filter q)).Nodup := by
    have hsub : (idsOf (bs.filter q)).Sublist (idsOf bs) := by
      unfold idsOf
      exact List.Sublist.map (fun b => b.id) (List.filter_sublist bs)
    exact hnd.sublist hsub
  have hmem' : b ∈ bs.filter q := List.mem_filter.mpr ⟨hmem, hq⟩
  rw [← hid]
  exact mem_findBlock_nodup hnd' hmem'

theorem removeAxis_eq_noparent {bs : List Block} {i : String} {blk : Block}
    (hfb : findBlock bs i = some blk) (ht : jsTruthy blk.parentId = false) :
    removeAxis i bs =
      bs.filter (fun b => !((dfsCollect bs bs.length i).contains b.id)) := by
  simp only [removeAxis, hfb, ht, Bool.false_eq_true, if_false]

theorem removeAxis_eq_parent {bs : List Block} {i p : String} {blk pb : Block}
    (hfb : findBlock bs i = some blk) (hp : blk.parentId = some p)
    (hpne : p ≠ "") (hfp : findBlock bs p = some pb) :
    removeAxis i bs =
      (updateFirst (fun b => b.id == p)
          (fun b => { b with children := spliceAtIndexOf b.children i }) bs).filter
        (fun b => !((dfsCollect
          (updateFirst (fun b => b.id == p)
            (fun b => { b with children := spliceAtIndexOf b.children i }) bs)
          (updateFirst (fun b => b.id == p)
            (fun b => { b with children := spliceAtIndexOf b.children i }) bs).length
          i).contains b.id)) := by
  simp only [removeAxis, hfb, hp, jsTruthy_some_ne hpne, if_true, hfp]

theorem scenario_dists {bs : List Block} (hinv : ForestInv bs) {i p : String}
    {blk : Block} (hfb : findBlock bs i = some blk)
    (hp : blk.parentId = some p) :
    ∃ dp, rootDist bs bs.length p = some dp ∧
      rootDist bs bs.length i = some (dp + 1) := by
  obtain ⟨hmem, hid⟩ := findBlock_mem hfb
  have hdi : ∃ di, rootDist bs bs.length i = some di := by
    have := hinv.2.2.2.2 blk hmem
    rw [hid] at this
    cases h : rootDist bs bs.length i with
    | none => rw [h] at this; simp at this
    | some di => exact ⟨di, rfl⟩
  obtain ⟨di, hdi⟩ := hdi
  cases di with
  | zero =>
    obtain ⟨n1, hn1⟩ : ∃ n1, bs.length = n1 + 1 := by
      have : 0 < bs.length := List.length_pos.mpr (List.ne_nil_of_mem hmem)
      exact ⟨bs.length - 1, by omega⟩
    rw [hn1] at hdi
    obtain ⟨b', hb', hbp'⟩ := rootDist_zero_unfold hdi
    rw [hfb] at hb'
    cases hb'
    rw [hp] at hbp'
    cases hbp'
  | succ e =>
    obtain ⟨n1, hn1⟩ : ∃ n1, bs.length = n1 + 1 := by
      have : 0 < bs.length := List.length_pos.mpr (List.ne_nil_of_mem hmem)
      exact ⟨bs.length - 1, by omega⟩
    rw [hn1] at hdi
    obtain ⟨b', p', hb', hbp', hrp⟩ := rootDist_succ_unfold hdi
    rw [hfb] at hb'
    cases hb'
    rw [hp] at hbp'
    cases hbp'
    refine ⟨e, ?_, by rw [← hn1] at hdi; exact hdi⟩
    rw [hn1]
    exact rootDist_mono hrp (by omega)

theorem scenario_not_reaches_parent {bs : List Block} (hinv : ForestInv bs)
    {i p : String} {blk : Block} (hfb : findBlock bs i = some blk)
    (hp : blk.parentId = some p) :
    ¬ ReachesVia (childrenOf bs) i p := by
  intro hreach
  obtain ⟨dp, hdp, hdi⟩ := scenario_dists hinv hfb hp
  obtain ⟨dy, hdy, hle, _⟩ := forestInv_reaches_dist hinv hreach hdi
  have : dy = dp := rootDist_det hdy hdp
  omega

theorem dfs_updateFirst_parent_eq {bs : List Block} (hinv : ForestInv bs)
    {i p : String} {blk : Block} (hfb : findBlock bs i = some blk)
    (hp : blk.parentId = some p) (g : Block → Block)
    (hg : ∀ b, (g b).id = b.id) :
    ∀ f, dfsCollect (updateFirst (fun b => b.id == p) g bs) f i =
      dfsCollect bs f i := by
  intro f
  rw [dfsCollect_eq_dfsVia, dfsCollect_eq_dfsVia]
  refine @dfsVia_congr _ _ p ?_ i ?_ f
  · intro x hx
    unfold childrenOf
    rw [findBlock_updateFirst_id hg bs x, if_neg hx]
  · intro z hz he
    subst he
    exact scenario_not_reaches_parent hinv hfb hp hz

theorem dfs_char {bs : List Block} (hinv : ForestInv bs) {i : String}
    (hmem : i ∈ idsOf bs) (y : String) :
    y ∈ dfsCollect bs bs.length i ↔ ReachesVia (childrenOf bs) i y := by
  rw [dfsCollect_eq_dfsVia]
  constructor
  · exact dfsVia_sound
  · intro hr
    have hrank : ∀ x c, ReachesVia (childrenOf bs) i x → c ∈ childrenOf bs x →
        distRank bs c < distRank bs x := fun x c _ hc => forestInv_rank hinv x c hc
    refine dfsVia_complete hrank (ReachesVia.refl i) hr ?_
    have hlen : 0 < bs.length := by
      cases bs with
      | nil => simp [idsOf] at hmem
      | cons b bs => simp
    unfold distRank
    omega

/-- Claim C1, amended: when the removed node's stored parent reference is
not the JS-falsy empty string, `removeBlock` removes from the flat list
exactly the identifiers of the depth-first collected subtree of `i` (the
collection coincides with reachability along child edges) and removes `i`
from its parent's child sequence, touching nothing else of the parent. -/
theorem claim_C1 (bs : List Block) (hinv : ForestInv bs) {i : String}
    {blk : Block} (hfb : findBlock bs i = some blk)
    (hne : blk.parentId ≠ some "") :
    (∀ y, y ∈ dfsCollect bs bs.length i ↔ ReachesVia (childrenOf bs) i y) ∧
    idsOf (removeAxis i bs) =
      (idsOf bs).filter (fun x => !((dfsCollect bs bs.length i).contains x)) ∧
    (∀ p pb, blk.parentId = some p → findBlock bs p = some pb →
      ∃ pb', findBlock (removeAxis i bs) p = some pb' ∧
        pb'.children = pb.children.erase i ∧ pb'.id = pb.id ∧
        pb'.label = pb.label ∧ pb'.parentId = pb.parentId) := by
  have hmem : i ∈ idsOf bs := by
    rw [← findBlock_isSome_iff, hfb]
    rfl
  have hchar := dfs_char hinv hmem
  refine ⟨hchar, ?_, ?_⟩
  · cases hpid : blk.parentId with
    | none =>
      rw [removeAxis_eq_noparent hfb (by rw [hpid]; rfl)]
      exact idsOf_filter_pred (fun x => !((dfsCollect bs bs.length i).contains x)) bs
    | some p =>
      have hpne : p ≠ "" := by
        intro he
        subst he
        exact hne hpid
      obtain ⟨hbmem, hbid⟩ := findBlock_mem hfb
      obtain ⟨pb0, hpb0mem, hpb0id, hiIn⟩ :=
        forestInv_parent_resolves hinv hbmem hpid
      have hfp : findBlock bs p = some pb0 := by
        rw [← hpb0id]
        exact mem_findBlock_nodup hinv.1 hpb0mem
      rw [removeAxis_eq_parent hfb hpid hpne hfp]
      have hdfs := dfs_updateFirst_parent_eq hinv hfb hpid
        (fun b => { b with children := spliceAtIndexOf b.children i })
        (fun b => rfl)
      have hlen1 : (updateFirst (fun b => b.id == p)
          (fun b => { b with children := spliceAtIndexOf b.children i })
          bs).length = bs.length := length_updateFirst _ _ bs
      rw [hlen1, hdfs bs.length]
      rw [idsOf_filter_pred (fun x => !((dfsCollect bs bs.length i).contains x))]
      rw [@idsOf_updateFirst (fun b => b.id == p)
        (fun b => { b with children := spliceAtIndexOf b.children i })
        (fun b => rfl) bs]
  · intro p pb hpid hfp
    have hpne : p ≠ "" := by
      intro he
      subst he
      exact hne hpid
    obtain ⟨hbmem, hbid⟩ := findBlock_mem hfb
    obtain ⟨pb0, hpb0mem, hpb0id, hiIn⟩ :=
      forestInv_parent_resolves hinv hbmem hpid
    have hfp0 : findBlock bs p = some pb0 := by
      rw [← hpb0id]
      exact mem_findBlock_nodup hinv.1 hpb0mem
    have hpb : pb = pb0 := by
      rw [hfp] at hfp0
      exact Option.some.inj hfp0
    subst hpb
    have hiIn' : i ∈ pb.children := hbid ▸ hiIn
    rw [removeAxis_eq_parent hfb hpid hpne hfp]
    have hdfs := dfs_updateFirst_parent_eq hinv hfb hpid
      (fun b => { b with children := spliceAtIndexOf b.children i })
      (fun b => rfl)
    have hf1 : findBlock (updateFirst (fun b => b.id == p)
        (fun b => { b with children := spliceAtIndexOf b.children i }) bs) p =
        some { pb with children := spliceAtIndexOf pb.children i } := by
      rw [@findBlock_updateFirst_id p
        (fun b => { b with children := spliceAtIndexOf b.children i })
        (fun b => rfl) bs p, if_pos rfl, hfp]
      rfl
    have hnd1 : (idsOf (updateFirst (fun b => b.id == p)
        (fun b => { b with children := spliceAtIndexOf b.children i }) bs)).Nodup := by
      rw [@idsOf_updateFirst (fun b => b.id == p)
        (fun b => { b with children := spliceAtIndexOf b.children i })
        (fun b => rfl) bs]
      exact hinv.1
    have hnotp : ¬ ReachesVia (childrenOf bs) i p :=
      scenario_not_reaches_parent hinv hfb hpid
    have hsurv : (!((dfsCollect (updateFirst (fun b => b.id == p)
        (fun b => { b with children := spliceAtIndexOf b.children i }) bs)
        (updateFirst (fun b => b.id == p)
          (fun b => { b with children := spliceAtIndexOf b.children i })
          bs).length i).contains
        ({ pb with children := spliceAtIndexOf pb.children i } : Block).id)) =
        true := by
    -- the parent survives: it is not reachable from the removed node
      have hlen1 : (updateFirst (fun b => b.id == p)
          (fun b => { b with children := spliceAtIndexOf b.children i })
          bs).length = bs.length := length_updateFirst _ _ bs
      rw [hlen1, hdfs bs.length]
      have hnotin : ({ pb with children := spliceAtIndexOf pb.children i } :
          Block).id ∉ dfsCollect bs bs.length i := by
        show pb.id ∉ dfsCollect bs bs.length i
        rw [hpb0id]
        intro hin
        exact hnotp ((hchar p).mp hin)
      simpa using hnotin
    refine ⟨{ pb with children := spliceAtIndexOf pb.children i },
      findBlock_filter_nodup hnd1 hf1 hsurv, ?_, rfl, rfl, rfl⟩
    show spliceAtIndexOf pb.children i = pb.children.erase i
    exact spliceAtIndexOf_of_mem hiIn'

/-- A root block whose identifier is the empty string. -/
def cexRoot : Block :=
  { id := "", label := "r", parentId := none, children := ["a"] }

/-- A child attached under the empty-string root. -/
def cexChild : Block :=
  { id := "a", label := "l", parentId := some "", children := [] }

/-- A forest whose root has the empty string as identifier. -/
def cexBs : List Block := [cexRoot, cexChild]

/-- Counterexample to claim C1 as stated: in a forest rooted at the
empty-string identifier, removing the leaf `a` deletes it from the flat
list but — because `if (block.parentId)` treats the empty string as
falsy — leaves it dangling in its parent's child sequence instead of
removing it there. -/
theorem claim_C1_counterexample :
    ForestInv cexBs ∧
    findBlock cexBs "a" = some cexChild ∧
    cexChild.parentId = some "" ∧
    findBlock cexBs "" = some cexRoot ∧
    (findBlock (removeAxis "a" cexBs) "").map Block.children = some ["a"] ∧
    cexRoot.children.erase "a" = [] := by
  decide

/-- Witness for the amended claim C1 on the initial row tree. -/
theorem claim_C1_witness :
    idsOf (removeAxis "ROW_A" initialState.rowBlocks) =
      (idsOf initialState.rowBlocks).filter
        (fun x => !((dfsCollect initialState.rowBlocks
          initialState.rowBlocks.length "ROW_A").contains x)) ∧
    ∃ pb', findBlock (removeAxis "ROW_A" initialState.rowBlocks) "ROW_ROOT" =
        some pb' ∧
      pb'.children = rowRootBlock.children.erase "ROW_A" ∧
      pb'.id = rowRootBlock.id ∧ pb'.label = rowRootBlock.label ∧
      pb'.parentId = rowRootBlock.parentId := by
  have h := claim_C1 initialState.rowBlocks (by decide)
    (show findBlock initialState.rowBlocks "ROW_A" = some rowABlock by decide)
    (by decide)
  exact ⟨h.2.1, h.2.2 "ROW_ROOT" rowRootBlock (by decide) (by decide)⟩

/-! Algebra of `updateFirst` and `findBlock` over appends, used for the
insert-then-delete roundtrip. -/

theorem findBlock_append_left {l r : List Block} {y : String} {b : Block}
    (h : findBlock l y = some b) : findBlock (l ++ r) y = some b := by
  show (l ++ r).find? (fun c => c.id == y) = some b
  rw [find?_append]
  rw [show l.find? (fun c => c.id == y) = some b from h]

theorem findBlock_append_right {l r : List Block} {y : String}
    (h : findBlock l y = none) : findBlock (l ++ r) y = findBlock r y := by
  show (l ++ r).find? (fun c => c.id == y) = _
  rw [find?_append]
  rw [show l.find? (fun c => c.id == y) = none from h]
  rfl

theorem updateFirst_append_left {p : Block → Bool} {f : Block → Block}
    {l : List Block} (r : List Block) {b : Block} (h : l.find? p = some b) :
    updateFirst p f (l ++ r) = updateFirst p f l ++ r := by
  induction l with
  | nil => simp at h
  | cons a l ih =>
    rw [List.find?_cons] at h
    cases hp : p a with
    | true => simp [updateFirst, hp]
    | false =>
      rw [hp] at h
      simp [updateFirst, hp, ih h]

theorem updateFirst_comp {p : Block → Bool} {f g : Block → Block}
    (hstable : ∀ b, p (g b) = p b) (l : List Block) :
    updateFirst p f (updateFirst p g l) =
      updateFirst p (fun b => f (g b)) l := by
  induction l with
  | nil => rfl
  | cons a l ih =>
    cases hp : p a with
    | true => simp [updateFirst, hp, hstable]
    | false => simp [updateFirst, hp, ih]

theorem updateFirst_eq_self {p : Block → Bool} {f : Block → Block}
    {l : List Block} (h : ∀ b ∈ l, p b = true → f b = b) :
    updateFirst p f l = l := by
  induction l with
  | nil => rfl
  | cons a l ih =>
    cases hp : p a with
    | true => simp [updateFirst, hp, h a (List.mem_cons_self a l) hp]
    | false =>
      simp only [updateFirst, hp, Bool.false_eq_true, if_false,
        List.cons.injEq, true_and]
      exact ih (fun b hb hpb => h b (List.mem_cons_of_mem a hb) hpb)

/-- Claim C2, amended: inserting a fresh block under a present parent
whose identifier is not the JS-falsy empty string and then removing it
restores the flat list exactly. -/
theorem claim_C2 (bs : List Block) (hinv : ForestInv bs) {p : String}
    {pb : Block} (hfp : findBlock bs p = some pb) (hpne : p ≠ "")
    (n : Block) (hfresh : n.id ∉ idsOf bs) (hnp : n.parentId = some p)
    (hnc : n.children = []) :
    removeAxis n.id (addAxis p n bs) = bs := by
  have haddeq : addAxis p n bs =
      updateFirst (fun b => b.id == p)
        (fun b => { b with children := b.children ++ [n.id] }) bs ++ [n] := by
    simp only [addAxis, hfp]
  set g : Block → Block :=
    fun b => { b with children := b.children ++ [n.id] } with hg
  set u1 : List Block := updateFirst (fun b => b.id == p) g bs with hu1
  -- lookups in the extended list
  have hu1ids : idsOf u1 = idsOf bs := by
    rw [hu1]
    exact @idsOf_updateFirst (fun b => b.id == p) g (fun b => rfl) bs
  have hfn1 : findBlock u1 n.id = none := by
    rw [findBlock_eq_none_iff, hu1ids]
    exact hfresh
  have hfn : findBlock (u1 ++ [n]) n.id = some n := by
    rw [findBlock_append_right hfn1]
    show List.find? (fun c => c.id == n.id) [n] = some n
    rw [List.find?_cons]
    simp
  have hnep : n.id ≠ p := by
    intro he
    apply hfresh
    rw [he, ← findBlock_isSome_iff, hfp]
    rfl
  have hfpu1 : findBlock u1 p = some (g pb) := by
    rw [hu1, @findBlock_updateFirst_id p g (fun b => rfl) bs p, if_pos rfl, hfp]
    rfl
  have hfp2 : findBlock (u1 ++ [n]) p = some (g pb) := findBlock_append_left hfpu1
  rw [haddeq]
  rw [removeAxis_eq_parent hfn hnp hpne hfp2]
  -- the second update undoes the first
  have hpbchild : n.id ∉ pb.children := by
    intro hin
    obtain ⟨hpbmem, _⟩ := findBlock_mem hfp
    obtain ⟨cb, hcbmem, hcbid, _⟩ := hinv.2.2.1 pb hpbmem n.id hin
    exact hfresh (hcbid ▸ mem_idsOf hcbmem)
  have hsplice : spliceAtIndexOf (pb.children ++ [n.id]) n.id = pb.children := by
    rw [spliceAtIndexOf_of_mem (by simp)]
    rw [List.erase_append_right _ hpbchild]
    simp
  have hbs3 : updateFirst (fun b => b.id == p)
      (fun b => { b with children := spliceAtIndexOf b.children n.id })
      (u1 ++ [n]) = bs ++ [n] := by
    rw [updateFirst_append_left [n] (show u1.find? (fun b => b.id == p) = some (g pb) from hfpu1)]
    congr 1
    rw [hu1, @updateFirst_comp (fun b => b.id == p)
      (fun b => { b with children := spliceAtIndexOf b.children n.id }) g
      (fun b => rfl) bs]
    refine updateFirst_eq_self (fun b hb hpb => ?_)
    have hbid : b.id = p := by simpa using hpb
    have hbeq : b = pb := by
      apply nodup_id_inj hinv.1 hb (findBlock_mem hfp).1
      rw [hbid, (findBlock_mem hfp).2]
    subst hbeq
    show { b with children := spliceAtIndexOf (b.children ++ [n.id]) n.id } = b
    rw [hsplice]
  rw [hbs3]
  have hfnbs : findBlock bs n.id = none := findBlock_eq_none_iff.mpr hfresh
  have hfn2 : findBlock (bs ++ [n]) n.id = some n := by
    rw [findBlock_append_right hfnbs]
    show List.find? (fun c => c.id == n.id) [n] = some n
    rw [List.find?_cons]
    simp
  have hdfs : dfsCollect (bs ++ [n]) (bs ++ [n]).length n.id = [n.id] := by
    have hlen : (bs ++ [n]).length = bs.length + 1 := by simp
    rw [hlen]
    show n.id :: (childrenOf (bs ++ [n]) n.id).flatMap
      (dfsCollect (bs ++ [n]) bs.length) = [n.id]
    unfold childrenOf
    rw [hfn2]
    simp [hnc]
  rw [hdfs]
  rw [List.filter_append]
  have h1 : bs.filter (fun b => !(([n.id] : List String).contains b.id)) = bs := by
    rw [List.filter_eq_self]
    intro b hb
    have hne2 : b.id ≠ n.id := by
      intro he
      exact hfresh (he ▸ mem_idsOf hb)
    simpa using hne2
  have h2 : ([n] : List Block).filter
      (fun b => !(([n.id] : List String).contains b.id)) = [] := by
    simp
  rw [h1, h2, List.append_nil]

/-- A one-node forest rooted at the empty-string identifier. -/
def cexBs2 : List Block :=
  [ { id := "", label := "r", parentId := none, children := [] } ]

/-- Counterexample to claim C2 as stated: inserting a fresh block under
the (present) empty-string parent and removing it again does not restore
the parent's child sequence — the falsy parent test of `removeBlock`
skips the detach step, leaving a dangling child reference. -/
theorem claim_C2_counterexample :
    ForestInv cexBs2 ∧
    (findBlock cexBs2 "").isSome = true ∧
    cexChild.id ∉ idsOf cexBs2 ∧
    cexChild.parentId = some "" ∧
    cexChild.children = [] ∧
    removeAxis cexChild.id (addAxis "" cexChild cexBs2) ≠ cexBs2 ∧
    (findBlock (removeAxis cexChild.id (addAxis "" cexChild cexBs2)) "").map
      Block.children = some ["a"] := by
  decide

/-- Witness for the amended claim C2 on the initial row tree. -/
theorem claim_C2_witness :
    removeAxis "N" (addAxis "ROW_A" freshBlock initialState.rowBlocks) =
      initialState.rowBlocks :=
  claim_C2 initialState.rowBlocks (by decide)
    (show findBlock initialState.rowBlocks "ROW_A" = some rowABlock by decide)
    (by decide) freshBlock (by decide) (by decide) (by decide)

/-! Support lemmas for invariant preservation. -/

theorem rootDist_min_fuel {bs : List Block} :
    ∀ {f : Nat} {x : String} {d : Nat}, rootDist bs f x = some d →
      rootDist bs (d+1) x = some d := by
  intro f
  induction f with
  | zero => intro x d h; simp [rootDist] at h
  | succ g ih =>
    intro x d h
    cases d with
    | zero =>
      obtain ⟨b, hfb, hbp⟩ := rootDist_zero_unfold h
      exact rootDist_root hfb hbp
    | succ e =>
      obtain ⟨b, q, hfb, hbp, hr⟩ := rootDist_succ_unfold h
      exact rootDist_parent_succ hfb hbp (ih hr)

theorem childrenOf_eq_of_mem {bs : List Block} (hnd : (idsOf bs).Nodup)
    {b : Block} (hb : b ∈ bs) : childrenOf bs b.id = b.children := by
  unfold childrenOf
  rw [mem_findBlock_nodup hnd hb]
  rfl

theorem occCount_eq_zero_of_not_mem_ids {bs : List Block}
    (hchild : ∀ b ∈ bs, ∀ c ∈ b.children, ∃ cb ∈ bs, cb.id = c ∧
      cb.parentId = some b.id)
    {x : String} (hx : x ∉ idsOf bs) : occCount bs x = 0 := by
  by_contra hne
  obtain ⟨e, hemem, hin⟩ := occCount_pos_exists (Nat.pos_of_ne_zero hne)
  obtain ⟨cb, hcbmem, hcbid, _⟩ := hchild e hemem x hin
  exact hx (hcbid ▸ mem_idsOf hcbmem)

theorem occCount_unique_entry {bs : List Block} (hocc : occCount bs x ≤ 1)
    {b1 b2 : Block} (h1 : b1 ∈ bs) (h2 : b2 ∈ bs) (hx1 : x ∈ b1.children)
    (hx2 : x ∈ b2.children) : b1 = b2 := by
  by_contra hne
  have := occCount_two h1 h2 hne hx1 hx2
  omega

theorem countP_filter_eq {P q : Block → Bool} {l : List Block}
    (h : ∀ b ∈ l, P b = true → q b = true) :
    (l.filter q).countP P = l.countP P := by
  rw [List.countP_filter]
  refine List.countP_congr (fun b hb => ?_)
  constructor
  · intro hpq
    simp only [Bool.and_eq_true] at hpq
    exact hpq.1
  · intro hp
    simp only [Bool.and_eq_true]
    exact ⟨hp, h b hb hp⟩

theorem rootCount_append (l1 l2 : List Block) :
    rootCount (l1 ++ l2) = rootCount l1 + rootCount l2 := by
  simp [rootCount, List.countP_append]

theorem rootCount_cons (b : Block) (l : List Block) :
    rootCount (b :: l) =
      (if b.parentId.isNone = true then 1 else 0) + rootCount l := by
  simp only [rootCount, List.countP_cons]
  cases hb : b.parentId.isNone <;> simp [hb] <;> omega

theorem updateFirst_corr {p : Block → Bool} {f : Block → Block}
    (hid : ∀ b, (f b).id = b.id) (hpar : ∀ b, (f b).parentId = b.parentId)
    {bs : List Block} {cb : Block} (h : cb ∈ bs) :
    ∃ cb' ∈ updateFirst p f bs, cb'.id = cb.id ∧ cb'.parentId = cb.parentId := by
  induction bs with
  | nil => cases h
  | cons a bs ih =>
    rcases List.mem_cons.mp h with rfl | h'
    · cases hp : p cb with
      | true => exact ⟨f cb, by simp [updateFirst, hp], hid cb, hpar cb⟩
      | false => exact ⟨cb, by simp [updateFirst, hp], rfl, rfl⟩
    · cases hp : p a with
      | true => exact ⟨cb, by simp [updateFirst, hp, h'], rfl, rfl⟩
      | false =>
        obtain ⟨cb', hcb', hii, hpp⟩ := ih h'
        exact ⟨cb', by simp [updateFirst, hp]; right; exact hcb', hii, hpp⟩

theorem mem_updateFirst_inv {p : Block → Bool} {f : Block → Block}
    {bs : List Block} {b' : Block} (h : b' ∈ updateFirst p f bs) :
    ∃ b ∈ bs, b' = b ∨ (b' = f b ∧ p b = true) := by
  induction bs with
  | nil => cases h
  | cons a bs ih =>
    cases hp : p a with
    | true =>
      rw [show updateFirst p f (a :: bs) = f a :: bs by simp [updateFirst, hp]] at h
      rcases List.mem_cons.mp h with rfl | h'
      · exact ⟨a, List.mem_cons_self a bs, Or.inr ⟨rfl, hp⟩⟩
      · exact ⟨b', List.mem_cons_of_mem a h', Or.inl rfl⟩
    | false =>
      rw [show updateFirst p f (a :: bs) = a :: updateFirst p f bs by
        simp [updateFirst, hp]] at h
      rcases List.mem_cons.mp h with rfl | h'
      · exact ⟨b', List.mem_cons_self b' bs, Or.inl rfl⟩
      · obtain ⟨b, hb, hor⟩ := ih h'
        exact ⟨b, List.mem_cons_of_mem a hb, hor⟩

/-- Pointwise correspondence between two flat lists: same identifier,
same parent, children equal up to permutation. -/
def BlockCorr (b b' : Block) : Prop :=
  b'.id = b.id ∧ b'.parentId = b.parentId ∧ b'.children.Perm b.children

theorem blockCorr_refl (b : Block) : BlockCorr b b :=
  ⟨rfl, rfl, List.Perm.refl _⟩

theorem corr_idsOf {bs bs' : List Block}
    (h : List.Forall₂ BlockCorr bs bs') : idsOf bs' = idsOf bs := by
  induction h with
  | nil => rfl
  | cons hR _ ih =>
    simp only [idsOf, List.map_cons] at ih ⊢
    rw [ih, hR.1]

theorem corr_rootCount {bs bs' : List Block}
    (h : List.Forall₂ BlockCorr bs bs') : rootCount bs' = rootCount bs := by
  induction h with
  | nil => rfl
  | cons hR _ ih =>
    rw [rootCount_cons, rootCount_cons, ih, hR.2.1]

theorem corr_occCount {bs bs' : List Block}
    (h : List.Forall₂ BlockCorr bs bs') (x : String) :
    occCount bs' x = occCount bs x := by
  induction h with
  | nil => rfl
  | cons hR _ ih =>
    rw [occCount_cons, occCount_cons, ih, hR.2.2.count_eq x]

theorem corr_find {bs bs' : List Block}
    (h : List.Forall₂ BlockCorr bs bs') (y : String) :
    (findBlock bs' y).map Block.parentId =
      (findBlock bs y).map Block.parentId := by
  induction h with
  | nil => rfl
  | cons hR hF ih =>
    rename_i b b' l l'
    show ((b' :: l').find? (fun c => c.id == y)).map Block.parentId =
      ((b :: l).find? (fun c => c.id == y)).map Block.parentId
    rw [List.find?_cons, List.find?_cons, hR.1]
    cases hp : (b.id == y) with
    | true => simp [hR.2.1]
    | false => exact ih

theorem corr_mem_right {bs bs' : List Block}
    (h : List.Forall₂ BlockCorr bs bs') {b' : Block} (hb : b' ∈ bs') :
    ∃ b ∈ bs, BlockCorr b b' := by
  induction h with
  | nil => cases hb
  | cons hR _ ih =>
    rcases List.mem_cons.mp hb with rfl | hb'
    · exact ⟨_, List.mem_cons_self _ _, hR⟩
    · obtain ⟨b, hbmem, hbc⟩ := ih hb'
      exact ⟨b, List.mem_cons_of_mem _ hbmem, hbc⟩

theorem corr_mem_left {bs bs' : List Block}
    (h : List.Forall₂ BlockCorr bs bs') {b : Block} (hb : b ∈ bs) :
    ∃ b' ∈ bs', BlockCorr b b' := by
  induction h with
  | nil => cases hb
  | cons hR _ ih =>
    rcases List.mem_cons.mp hb with rfl | hb'
    · exact ⟨_, List.mem_cons_self _ _, hR⟩
    · obtain ⟨b', hbmem, hbc⟩ := ih hb'
      exact ⟨b', List.mem_cons_of_mem _ hbmem, hbc⟩

theorem corr_length {bs bs' : List Block}
    (h : List.Forall₂ BlockCorr bs bs') : bs'.length = bs.length := by
  induction h with
  | nil => rfl
  | cons _ _ ih => simp [ih]

/-- The forest invariant is preserved by any pointwise correspondence
that keeps ids and parents and permutes children. -/
theorem forestInv_congr {bs bs' : List Block}
    (h : List.Forall₂ BlockCorr bs bs') (hinv : ForestInv bs) :
    ForestInv bs' := by
  obtain ⟨hnd, hroot, hchild, hocc, hdist⟩ := hinv
  refine ⟨?_, ?_, ?_, ?_, ?_⟩
  · rw [corr_idsOf h]; exact hnd
  · rw [corr_rootCount h]; exact hroot
  · intro b' hb' c hc
    obtain ⟨b, hbmem, hbc⟩ := corr_mem_right h hb'
    have hcb : c ∈ b.children := hbc.2.2.mem_iff.mp hc
    obtain ⟨cb, hcbmem, hcbid, hcbp⟩ := hchild b hbmem c hcb
    obtain ⟨cb', hcb'mem, hcb'c⟩ := corr_mem_left h hcbmem
    exact ⟨cb', hcb'mem, hcb'c.1 ▸ hcbid, by rw [hcb'c.2.1, hcbp, hbc.1]⟩
  · intro b' hb'
    obtain ⟨b, hbmem, hbc⟩ := corr_mem_right h hb'
    rw [corr_occCount h, hbc.1, hbc.2.1]
    exact hocc b hbmem
  · intro b' hb'
    obtain ⟨b, hbmem, hbc⟩ := corr_mem_right h hb'
    rw [corr_length h, hbc.1]
    have := rootDist_congr (corr_find h) bs.length b.id
    rw [this]
    exact hdist b hbmem

theorem reorderAxis_inv {bs : List Block} (hinv : ForestInv bs)
    (pid a o : String) : ForestInv (reorderAxis pid a o bs) := by
  cases hpb : findBlock bs pid with
  | none => simp only [reorderAxis, hpb]; exact hinv
  | some pb =>
    cases hcs : reorderChildren pb.children a o with
    | none => simp only [reorderAxis, hpb, hcs]; exact hinv
    | some cs =>
      simp only [reorderAxis, hpb, hcs]
      obtain ⟨l1, l2, hsplit, _, hupd⟩ :=
        @updateFirst_split (fun b => b.id == pid)
          (fun b => { b with children := cs }) bs pb hpb
      rw [hupd]
      refine forestInv_congr ?_ (show ForestInv (l1 ++ pb :: l2) from hsplit ▸ hinv)
      exact forall₂_update (fun x _ => blockCorr_refl x)
        (show BlockCorr pb { pb with children := cs } from
          ⟨rfl, rfl, reorderChildren_perm hcs⟩)
        (fun x _ => blockCorr_refl x)

theorem updateLabelAxis_inv {bs : List Block} (hinv : ForestInv bs)
    (i lb : String) : ForestInv (updateLabelAxis i lb bs) := by
  cases hfb : findBlock bs i with
  | none => simp only [updateLabelAxis, hfb]; exact hinv
  | some blk =>
    simp only [updateLabelAxis, hfb]
    obtain ⟨l1, l2, hsplit, _, hupd⟩ :=
      @updateFirst_split (fun b => b.id == i)
        (fun b => { b with label := lb }) bs blk hfb
    rw [hupd]
    refine forestInv_congr ?_ (show ForestInv (l1 ++ blk :: l2) from hsplit ▸ hinv)
    exact forall₂_update (fun x _ => blockCorr_refl x)
      (show BlockCorr blk { blk with label := lb } from
        ⟨rfl, rfl, List.Perm.refl _⟩)
      (fun x _ => blockCorr_refl x)

theorem rootCount_updateFirst {p : Block → Bool} {f : Block → Block}
    (hpar : ∀ b, (f b).parentId = b.parentId) (l : List Block) :
    rootCount (updateFirst p f l) = rootCount l := by
  induction l with
  | nil => rfl
  | cons a l ih =>
    cases hp : p a with
    | true =>
      rw [show updateFirst p f (a :: l) = f a :: l by simp [updateFirst, hp]]
      rw [rootCount_cons, rootCount_cons, hpar]
    | false =>
      rw [show updateFirst p f (a :: l) = a :: updateFirst p f l by
        simp [updateFirst, hp]]
      rw [rootCount_cons, rootCount_cons, ih]

theorem rootDist_transfer_subset {bs bs' : List Block}
    (hag : ∀ y, y ∈ idsOf bs → (findBlock bs' y).map Block.parentId =
      (findBlock bs y).map Block.parentId)
    (hclosed : ∀ y, y ∈ idsOf bs → ∀ b q, findBlock bs y = some b →
      b.parentId = some q → q ∈ idsOf bs) :
    ∀ {f : Nat} {y : String} {d : Nat}, y ∈ idsOf bs →
      rootDist bs f y = some d → rootDist bs' f y = some d := by
  intro f
  induction f with
  | zero => intro y d _ h; simp [rootDist] at h
  | succ g ih =>
    intro y d hy h
    have hb' : ∀ b : Block, findBlock bs y = some b →
        ∃ b', findBlock bs' y = some b' ∧ b'.parentId = b.parentId := by
      intro b hfb
      have hh := hag y hy
      rw [hfb] at hh
      cases hfb' : findBlock bs' y with
      | none => rw [hfb'] at hh; simp at hh
      | some b' =>
        rw [hfb'] at hh
        simp only [Option.map_some', Option.some.injEq] at hh
        exact ⟨b', rfl, hh⟩
    cases d with
    | zero =>
      obtain ⟨b, hfb, hbp⟩ := rootDist_zero_unfold h
      obtain ⟨b', hfb', hbp'⟩ := hb' b hfb
      exact rootDist_root hfb' (hbp' ▸ hbp)
    | succ e =>
      obtain ⟨b, q, hfb, hbp, hr⟩ := rootDist_succ_unfold h
      obtain ⟨b', hfb', hbp'⟩ := hb' b hfb
      have hq : q ∈ idsOf bs := hclosed y hy b q hfb hbp
      have := ih hq hr
      exact rootDist_parent_succ hfb' (hbp'.trans hbp) this

theorem addAxis_inv {bs : List Block} (hinv : ForestInv bs) {pid : String}
    (blk : Block) (hfresh : blk.id ∉ idsOf bs)
    (hparent : blk.parentId = some pid) (hchild : blk.children = []) :
    ForestInv (addAxis pid blk bs) := by
  cases hfp : findBlock bs pid with
  | none => simp only [addAxis, hfp]; exact hinv
  | some pb =>
    simp only [addAxis, hfp]
    obtain ⟨hnd, hroot, hchildInv, hocc, hdist⟩ := hinv
    have hpbid : pb.id = pid := by simpa using List.find?_some hfp
    have hpbmem : pb ∈ bs := List.mem_of_find?_eq_some hfp
    set g : Block → Block :=
      fun b => { b with children := b.children ++ [blk.id] } with hgdef
    set u1 : List Block := updateFirst (fun b => b.id == pid) g bs with hu1def
    have hu1ids : idsOf u1 = idsOf bs := by
      rw [hu1def]
      exact @idsOf_updateFirst (fun b => b.id == pid) g (fun b => rfl) bs
    have hids2 : idsOf (u1 ++ [blk]) = idsOf bs ++ [blk.id] := by
      rw [idsOf_append, hu1ids]
      rfl
    obtain ⟨l1, l2, hsplit, hl1, hupd⟩ :=
      @updateFirst_split (fun b => b.id == pid) g bs pb hfp
    have hoccu1 : ∀ x, occCount u1 x =
        occCount bs x + List.count x [blk.id] := by
      intro x
      rw [hu1def, hupd, hsplit]
      rw [occCount_append, occCount_append, occCount_cons, occCount_cons]
      have : (g pb).children = pb.children ++ [blk.id] := rfl
      rw [this, List.count_append]
      omega
    refine ⟨?_, ?_, ?_, ?_, ?_⟩
    · rw [hids2, List.nodup_append]
      refine ⟨hnd, List.nodup_singleton _, ?_⟩
      intro x hx hx'
      rcases List.mem_singleton.mp hx' with rfl
      exact hfresh hx
    · rw [rootCount_append]
      have h1 : rootCount u1 = rootCount bs := by
        rw [hu1def]
        exact @rootCount_updateFirst (fun b => b.id == pid) g (fun b => rfl) bs
      have h2 : rootCount [blk] = 0 := by
        rw [rootCount_cons]
        rw [hparent]
        simp [rootCount]
      rw [h1, h2, hroot]
    · intro b' hb' c hc
      rcases List.mem_append.mp hb' with hbu | hbr
      · obtain ⟨bo, hbo, hor⟩ := mem_updateFirst_inv hbu
        have hcases : (c ∈ bo.children ∧ b'.id = bo.id) ∨
            (c = blk.id ∧ b'.id = pid) := by
          rcases hor with rfl | ⟨rfl, hpred⟩
          · exact Or.inl ⟨hc, rfl⟩
          · have hboid : bo.id = pid := by simpa using hpred
            have : (g bo).children = bo.children ++ [blk.id] := rfl
            rw [this] at hc
            rcases List.mem_append.mp hc with hcb | hcr
            · exact Or.inl ⟨hcb, rfl⟩
            · rcases List.mem_singleton.mp hcr with rfl
              exact Or.inr ⟨rfl, hboid⟩
        rcases hcases with ⟨hcb, hbid⟩ | ⟨rfl, hbid⟩
        · obtain ⟨cb, hcbmem, hcbid, hcbp⟩ := hchildInv bo hbo c hcb
          obtain ⟨cb', hcb'mem, hcb'id, hcb'p⟩ :=
            @updateFirst_corr (fun b => b.id == pid) g (fun b => rfl)
              (fun b => rfl) bs cb hcbmem
          refine ⟨cb', List.mem_append.mpr (Or.inl hcb'mem),
            hcb'id.trans hcbid, ?_⟩
          rw [hcb'p, hcbp, hbid]
        · refine ⟨blk, List.mem_append.mpr (Or.inr (List.mem_singleton.mpr rfl)),
            rfl, ?_⟩
          rw [hparent, hbid]
      · rcases List.mem_singleton.mp hbr with rfl
        rw [hchild] at hc
        cases hc
    · intro b' hb'
      rw [occCount_append, occCount_cons]
      have hocc0 : occCount [] b'.id = 0 := rfl
      rcases List.mem_append.mp hb' with hbu | hbr
      · obtain ⟨bo, hbo, hor⟩ := mem_updateFirst_inv hbu
        have hbid : b'.id = bo.id := by
          rcases hor with rfl | ⟨rfl, _⟩ <;> rfl
        have hbpar : b'.parentId = bo.parentId := by
          rcases hor with rfl | ⟨rfl, _⟩ <;> rfl
        have hne2 : b'.id ≠ blk.id := by
          intro he
          exact hfresh (he ▸ hbid ▸ mem_idsOf hbo)
        have hcnt : List.count b'.id [blk.id] = 0 := by
          rw [List.count_eq_zero]
          simpa using hne2
        have hcnt2 : blk.children.count b'.id = 0 := by
          rw [hchild]
          rfl
        have hnil : occCount ([] : List Block) bo.id = 0 := rfl
        rw [hoccu1, hcnt, hcnt2, hbpar, hbid, hnil]
        have := hocc bo hbo
        omega
      · have hbe : b' = blk := List.mem_singleton.mp hbr
        rw [hbe]
        have hcnt : List.count blk.id [blk.id] = 1 := by simp
        have hcnt2 : blk.children.count blk.id = 0 := by
          rw [hchild]
          rfl
        have hz : occCount bs blk.id = 0 :=
          occCount_eq_zero_of_not_mem_ids hchildInv hfresh
        rw [hoccu1, hcnt, hcnt2, hz, hparent]
        simp [occCount]
    · have hlen2 : (u1 ++ [blk]).length = bs.length + 1 := by
        rw [List.length_append, hu1def, length_updateFirst]
        rfl
      have hag : ∀ y, y ∈ idsOf bs →
          (findBlock (u1 ++ [blk]) y).map Block.parentId =
          (findBlock bs y).map Block.parentId := by
        intro y hy
        have hfy : (findBlock u1 y).isSome = true := by
          rw [findBlock_isSome_iff, hu1ids]
          exact hy
        cases hfu : findBlock u1 y with
        | none => rw [hfu] at hfy; simp at hfy
        | some by1 =>
          rw [findBlock_append_left hfu]
          have := @findBlock_updateFirst_id pid g (fun b => rfl) bs y
          rw [← hu1def] at this
          rw [hfu] at this
          by_cases hyp : y = pid
          · rw [if_pos hyp] at this
            subst hyp
            rw [hfp] at this
            simp only [Option.map_some', Option.some.injEq] at this
            rw [this, hfp]
            rfl
          · rw [if_neg hyp] at this
            rw [← this]
      have hclosed : ∀ y, y ∈ idsOf bs → ∀ b q, findBlock bs y = some b →
          b.parentId = some q → q ∈ idsOf bs := by
        intro y hy b q hfb hbq
        obtain ⟨hbmem, _⟩ := findBlock_mem hfb
        obtain ⟨pq, hpqmem, hpqid, _⟩ :=
          forestInv_parent_resolves ⟨hnd, hroot, hchildInv, hocc, hdist⟩
            hbmem hbq
        exact hpqid ▸ mem_idsOf hpqmem
      intro b' hb'
      rw [hlen2]
      rcases List.mem_append.mp hb' with hbu | hbr
      · obtain ⟨bo, hbo, hor⟩ := mem_updateFirst_inv hbu
        have hbid : b'.id = bo.id := by
          rcases hor with rfl | ⟨rfl, _⟩ <;> rfl
        have hy : bo.id ∈ idsOf bs := mem_idsOf hbo
        have hd : ∃ d, rootDist bs bs.length bo.id = some d := by
          have := hdist bo hbo
          cases hrd : rootDist bs bs.length bo.id with
          | none => rw [hrd] at this; simp at this
          | some d => exact ⟨d, rfl⟩
        obtain ⟨d, hd⟩ := hd
        have := rootDist_transfer_subset hag hclosed hy
          (rootDist_mono hd (Nat.le_succ _))
        rw [hbid, this]
        rfl
      · have hbe : b' = blk := List.mem_singleton.mp hbr
        rw [hbe]
        have hfblk : findBlock (u1 ++ [blk]) blk.id = some blk := by
          have hnone : findBlock u1 blk.id = none := by
            rw [findBlock_eq_none_iff, hu1ids]
            exact hfresh
          rw [findBlock_append_right hnone]
          show List.find? (fun c => c.id == blk.id) [blk] = some blk
          rw [List.find?_cons]
          simp
        have hpidmem : pid ∈ idsOf bs := hpbid ▸ mem_idsOf hpbmem
        have hdp : ∃ dp, rootDist bs bs.length pid = some dp := by
          have := hdist pb hpbmem
          rw [hpbid] at this
          cases hrd : rootDist bs bs.length pid with
          | none => rw [hrd] at this; simp at this
          | some dp => exact ⟨dp, rfl⟩
        obtain ⟨dp, hdp⟩ := hdp
        have htr := rootDist_transfer_subset hag hclosed hpidmem hdp
        rw [rootDist_parent_succ hfblk hparent htr]
        rfl

theorem rootDist_transfer_avoid {bs bs' : List Block} {i : String}
    (hlook : ∀ y e, findBlock bs y = some e →
      ¬ ReachesVia (childrenOf bs) i y →
      ∃ e', findBlock bs' y = some e' ∧ e'.parentId = e.parentId)
    (hstep : ∀ y e w, findBlock bs y = some e → e.parentId = some w →
      ¬ ReachesVia (childrenOf bs) i y → ¬ ReachesVia (childrenOf bs) i w) :
    ∀ {f : Nat} {y : String} {d : Nat}, rootDist bs f y = some d →
      ¬ ReachesVia (childrenOf bs) i y → rootDist bs' f y = some d := by
  intro f
  induction f with
  | zero => intro y d h _; simp [rootDist] at h
  | succ g ih =>
    intro y d h hy
    cases d with
    | zero =>
      obtain ⟨e, hfe, hep⟩ := rootDist_zero_unfold h
      obtain ⟨e', hfe', hep'⟩ := hlook y e hfe hy
      exact rootDist_root hfe' (hep' ▸ hep)
    | succ d' =>
      obtain ⟨e, w, hfe, hew, hr⟩ := rootDist_succ_unfold h
      obtain ⟨e', hfe', hep'⟩ := hlook y e hfe hy
      have hw : ¬ ReachesVia (childrenOf bs) i w := hstep y e w hfe hew hy
      exact rootDist_parent_succ hfe' (hep'.trans hew) (ih hr hw)

theorem removeAxis_inv {bs : List Block} (hinv : ForestInv bs)
    (hEmpty : ∀ b ∈ bs, b.id ≠ "") (i : String)
    (hnr : ∀ blk, findBlock bs i = some blk → blk.parentId ≠ none) :
    ForestInv (removeAxis i bs) := by
  cases hfb : findBlock bs i with
  | none => simp only [removeAxis, hfb]; exact hinv
  | some blk =>
    obtain ⟨p, hp⟩ : ∃ p, blk.parentId = some p := by
      cases hbp : blk.parentId with
      | none => exact absurd hbp (hnr blk hfb)
      | some p => exact ⟨p, rfl⟩
    obtain ⟨hbmem, hbid⟩ := findBlock_mem hfb
    obtain ⟨pb, hpbmem, hpbid, hiIn0⟩ := forestInv_parent_resolves hinv hbmem hp
    have hiIn : i ∈ pb.children := hbid ▸ hiIn0
    have hpne : p ≠ "" := hpbid ▸ hEmpty pb hpbmem
    have hfp : findBlock bs p = some pb := by
      rw [← hpbid]
      exact mem_findBlock_nodup hinv.1 hpbmem
    rw [removeAxis_eq_parent hfb hp hpne hfp]
    set g : Block → Block :=
      fun b => { b with children := spliceAtIndexOf b.children i } with hgdef
    set u1 : List Block := updateFirst (fun b => b.id == p) g bs with hu1def
    have hu1len : u1.length = bs.length := length_updateFirst _ _ bs
    have hdfseq : dfsCollect u1 u1.length i = dfsCollect bs bs.length i := by
      rw [hu1len]
      exact dfs_updateFirst_parent_eq hinv hfb hp g (fun b => rfl) bs.length
    rw [hdfseq]
    set S : List String := dfsCollect bs bs.length i with hSdef
    have hchar : ∀ y, y ∈ S ↔ ReachesVia (childrenOf bs) i y :=
      dfs_char hinv (by rw [← findBlock_isSome_iff, hfb]; rfl)
    have hqtrue : ∀ y : String, ¬ ReachesVia (childrenOf bs) i y →
        (!(S.contains y)) = true := by
      intro y hy
      have hnot : y ∉ S := fun hin => hy ((hchar y).mp hin)
      simpa using hnot
    have hqfalse : ∀ y : String, (!(S.contains y)) = true →
        ¬ ReachesVia (childrenOf bs) i y := by
      intro y hq hr
      have : y ∈ S := (hchar y).mpr hr
      have : S.contains y = true := by simpa using this
      rw [this] at hq
      simp at hq
    have hu1ids : idsOf u1 = idsOf bs := by
      rw [hu1def]
      exact @idsOf_updateFirst (fun b => b.id == p) g (fun b => rfl) bs
    have hnd1 : (idsOf u1).Nodup := by rw [hu1ids]; exact hinv.1
    obtain ⟨l1, l2, hsplit, hl1, hupd⟩ :=
      @updateFirst_split (fun b => b.id == p) g bs pb hfp
    have hmemu1 : ∀ b' ∈ u1, ∃ bo ∈ bs, b'.id = bo.id ∧
        b'.parentId = bo.parentId ∧ (b' = bo ∨ (b' = g bo ∧ bo = pb)) := by
      intro b' hb'
      obtain ⟨bo, hbo, hor⟩ := mem_updateFirst_inv (hu1def ▸ hb')
      rcases hor with rfl | ⟨rfl, hpred⟩
      · exact ⟨b', hbo, rfl, rfl, Or.inl rfl⟩
      · have hbop : bo.id = p := by simpa using hpred
        have : bo = pb := nodup_id_inj hinv.1 hbo hpbmem (hbop.trans hpbid.symm)
        exact ⟨bo, hbo, rfl, rfl, Or.inr ⟨rfl, this⟩⟩
    have hdists := scenario_dists hinv hfb hp
    obtain ⟨dp, hdp, hdi⟩ := hdists
    have hoccI : occCount bs i = 1 := by
      have := hinv.2.2.2.1 blk hbmem
      rw [hbid, hp] at this
      simpa using this
    have hcntpb : pb.children.count i = 1 := by
      have hle : pb.children.count i ≤ occCount bs i := count_le_occCount hpbmem i
      have hge : 0 < pb.children.count i := List.count_pos_iff.mpr hiIn
      omega
    have hinotin : i ∉ pb.children.erase i := by
      have := List.count_erase_self i pb.children
      rw [hcntpb] at this
      rw [← List.count_pos_iff]
      omega
    have hgpbchildren : (g pb).children = pb.children.erase i := by
      show spliceAtIndexOf pb.children i = pb.children.erase i
      exact spliceAtIndexOf_of_mem hiIn
    have hIonlyPb : ∀ e ∈ bs, i ∈ e.children → e = pb := by
      intro e he hie
      exact occCount_unique_entry (by omega) he hpbmem hie hiIn
    have hpbnotu1 : pb ∉ u1 := by
      intro hmem
      rw [hu1def, hupd] at hmem
      rcases List.mem_append.mp hmem with h1 | h2
      · have := hl1 pb h1
        simp [hpbid] at this
      · rcases List.mem_cons.mp h2 with heq | h3
        · have : pb.children.count i = (pb.children.erase i).count i := by
            rw [← hgpbchildren]
            exact congrArg (fun l => List.count i l) (congrArg Block.children heq)
          rw [List.count_erase_self, hcntpb] at this
          omega
        · have hnd := hinv.1
          rw [hsplit] at hnd
          have hids : idsOf (l1 ++ pb :: l2) = idsOf l1 ++ pb.id :: idsOf l2 := by
            simp [idsOf]
          rw [hids, List.nodup_append] at hnd
          have h4 := hnd.2.1
          rw [List.nodup_cons] at h4
          exact h4.1 (mem_idsOf h3)
    have hgpbmem : g pb ∈ u1 := by
      rw [hu1def, hupd]
      exact List.mem_append.mpr (Or.inr (List.mem_cons_self _ _))
    have hmem_bs_u1 : ∀ bo ∈ bs, bo ≠ pb → bo ∈ u1 := by
      intro bo hbo hne2
      rw [hu1def, hupd]
      rw [hsplit] at hbo
      rcases List.mem_append.mp hbo with h1 | h2
      · exact List.mem_append.mpr (Or.inl h1)
      · rcases List.mem_cons.mp h2 with heq | h3
        · exact absurd heq hne2
        · exact List.mem_append.mpr (Or.inr (List.mem_cons_of_mem _ h3))
    have hCnotR : ∀ bo ∈ bs, ¬ ReachesVia (childrenOf bs) i bo.id →
        ∀ c ∈ bo.children, c ≠ i → ¬ ReachesVia (childrenOf bs) i c := by
      intro bo hbo hnbo c hc hci hrc
      obtain ⟨d, hd, hcd⟩ := reachesVia_inv hrc hci
      obtain ⟨e, hfe, hce⟩ := mem_childrenOf.mp hcd
      obtain ⟨hemem, heid⟩ := findBlock_mem hfe
      obtain ⟨cb, hcbmem, hcbid, hcbp⟩ := hinv.2.2.1 bo hbo c hc
      have hocc_c : occCount bs c = 1 := by
        have := hinv.2.2.2.1 cb hcbmem
        rw [hcbid, hcbp] at this
        simpa using this
      have hebo : e = bo := occCount_unique_entry (by omega) hemem hbo hce hc
      subst hebo
      rw [← heid] at hd
      exact hnbo hd
    have hoccu1 : ∀ x, x ≠ i → occCount u1 x = occCount bs x := by
      intro x hxi
      rw [hu1def, hupd, hsplit, occCount_append, occCount_append,
        occCount_cons, occCount_cons, hgpbchildren,
        List.count_erase_of_ne hxi]
    -- survivor lookup for the transfer lemma
    have hlook : ∀ y e, findBlock bs y = some e →
        ¬ ReachesVia (childrenOf bs) i y →
        ∃ e', findBlock (u1.filter (fun b => !(S.contains b.id))) y = some e' ∧
          e'.parentId = e.parentId := by
      intro y e hfe hny
      obtain ⟨hemem, heid⟩ := findBlock_mem hfe
      by_cases hyp : y = p
      · have hepb : e = pb := by
          rw [hyp] at hfe
          rw [hfe] at hfp
          exact Option.some.inj hfp
        refine ⟨g pb, ?_, by rw [hepb]⟩
        refine findBlock_filter_nodup hnd1 ?_ ?_
        · rw [hu1def, @findBlock_updateFirst_id p g (fun b => rfl) bs y,
            if_pos hyp, hfp]
          rfl
        · show (!(S.contains (g pb).id)) = true
          refine hqtrue _ ?_
          show ¬ ReachesVia (childrenOf bs) i pb.id
          rw [hpbid]
          exact scenario_not_reaches_parent hinv hfb hp
      · refine ⟨e, ?_, rfl⟩
        refine findBlock_filter_nodup hnd1 ?_ ?_
        · rw [hu1def, @findBlock_updateFirst_id p g (fun b => rfl) bs y,
            if_neg hyp]
          exact hfe
        · show (!(S.contains e.id)) = true
          exact hqtrue _ (heid ▸ hny)
    have hstep : ∀ y e w, findBlock bs y = some e → e.parentId = some w →
        ¬ ReachesVia (childrenOf bs) i y →
        ¬ ReachesVia (childrenOf bs) i w := by
      intro y e w hfe hew hny hrw
      obtain ⟨hemem, heid⟩ := findBlock_mem hfe
      obtain ⟨pw, hpwmem, hpwid, hinw⟩ := forestInv_parent_resolves hinv hemem hew
      have hcw : y ∈ childrenOf bs w := by
        rw [← hpwid, childrenOf_eq_of_mem hinv.1 hpwmem]
        exact heid ▸ hinw
      exact hny (reachesVia_snoc hrw hcw)
    -- the five invariant clauses
    refine ⟨?_, ?_, ?_, ?_, ?_⟩
    · have hsub : (idsOf (u1.filter (fun b => !(S.contains b.id)))).Sublist
          (idsOf u1) := by
        unfold idsOf
        exact List.Sublist.map (fun b => b.id) (List.filter_sublist u1)
      exact hnd1.sublist hsub
    · show rootCount _ = 1
      have hroots : ∀ b1 ∈ u1, b1.parentId.isNone = true →
          (!(S.contains b1.id)) = true := by
        intro b1 hb1 hb1root
        obtain ⟨bo, hbo, hbid1, hbpar1, _⟩ := hmemu1 b1 hb1
        refine hqtrue _ ?_
        intro hr
        obtain ⟨dy, hdy, hle, _⟩ := forestInv_reaches_dist hinv hr hdi
        have hbo_root : bo.parentId = none := by
          rw [← hbpar1]
          exact Option.isNone_iff_eq_none.mp hb1root
        have hfo : findBlock bs bo.id = some bo := mem_findBlock_nodup hinv.1 hbo
        obtain ⟨n1, hn1⟩ : ∃ n1, bs.length = n1 + 1 :=
          ⟨bs.length - 1, by
            have : 0 < bs.length := List.length_pos.mpr (List.ne_nil_of_mem hbo)
            omega⟩
        have hzero : rootDist bs bs.length bo.id = some 0 := by
          rw [hn1]
          exact rootDist_root hfo hbo_root
        rw [hbid1] at hdy
        have := rootDist_det hdy hzero
        omega
      have h1 : rootCount (u1.filter (fun b => !(S.contains b.id))) =
          rootCount u1 := countP_filter_eq hroots
      have h2 : rootCount u1 = rootCount bs := by
        rw [hu1def]
        exact @rootCount_updateFirst (fun b => b.id == p) g (fun b => rfl) bs
      rw [h1, h2]
      exact hinv.2.1
    · intro b' hb' c hc
      obtain ⟨hbu, hq⟩ := List.mem_filter.mp hb'
      have hnRSb : ¬ ReachesVia (childrenOf bs) i b'.id := hqfalse _ hq
      obtain ⟨bo, hbo, hbid1, hbpar1, hform⟩ := hmemu1 b' hbu
      have hcbo : c ∈ bo.children ∧ c ≠ i := by
        rcases hform with rfl | ⟨rfl, rfl⟩
        · refine ⟨hc, ?_⟩
          intro hci
          subst hci
          exact hpbnotu1 (hIonlyPb b' hbo hc ▸ hbu)
        · rw [hgpbchildren] at hc
          exact ⟨List.mem_of_mem_erase hc, fun hci => hinotin (hci ▸ hc)⟩
      have hnRSc : ¬ ReachesVia (childrenOf bs) i c :=
        hCnotR bo hbo (hbid1 ▸ hnRSb) c hcbo.1 hcbo.2
      obtain ⟨cb, hcbmem, hcbid, hcbp⟩ := hinv.2.2.1 bo hbo c hcbo.1
      obtain ⟨cb1, hcb1mem, hcb1id, hcb1p⟩ :=
        @updateFirst_corr (fun b => b.id == p) g (fun b => rfl)
          (fun b => rfl) bs cb hcbmem
      refine ⟨cb1, ?_, hcb1id.trans hcbid, ?_⟩
      · refine List.mem_filter.mpr ⟨hu1def ▸ hcb1mem, ?_⟩
        show (!(S.contains cb1.id)) = true
        rw [hcb1id, hcbid]
        exact hqtrue _ hnRSc
      · rw [hcb1p, hcbp, hbid1]
    · intro b' hb'
      obtain ⟨hbu, hq⟩ := List.mem_filter.mp hb'
      have hnRSb : ¬ ReachesVia (childrenOf bs) i b'.id := hqfalse _ hq
      obtain ⟨bo, hbo, hbid1, hbpar1, hform⟩ := hmemu1 b' hbu
      have hxi : b'.id ≠ i := by
        intro he
        refine hnRSb ?_
        rw [he]
        exact ReachesVia.refl i
      have hle1 : occCount (u1.filter (fun b => !(S.contains b.id))) b'.id ≤
          occCount bs b'.id := by
        have h1 := @occCount_sublist_le
          (u1.filter (fun b => !(S.contains b.id))) u1
          (List.filter_sublist u1) b'.id
        rw [hoccu1 b'.id hxi] at h1
        exact h1
      cases hbop : bo.parentId with
      | none =>
        have hz : occCount bs b'.id = 0 := by
          have := hinv.2.2.2.1 bo hbo
          rw [hbop] at this
          rw [hbid1]
          simpa using this
        rw [hbpar1, hbop, if_pos rfl]
        omega
      | some w =>
        have ho1 : occCount bs b'.id = 1 := by
          have := hinv.2.2.2.1 bo hbo
          rw [hbop] at this
          rw [hbid1]
          simpa using this
        obtain ⟨px, hpxmem, hpxin⟩ :=
          occCount_pos_exists (show 0 < occCount bs b'.id by omega)
        have hnRSpx : ¬ ReachesVia (childrenOf bs) i px.id := by
          intro hr
          have : b'.id ∈ childrenOf bs px.id := by
            rw [childrenOf_eq_of_mem hinv.1 hpxmem]
            exact hpxin
          exact hnRSb (reachesVia_snoc hr this)
        have hpx1 : ∃ px1 ∈ u1, px1.id = px.id ∧ b'.id ∈ px1.children := by
          by_cases hpxpb : px = pb
          · refine ⟨g pb, hgpbmem, by rw [hpxpb], ?_⟩
            rw [hgpbchildren]
            rw [List.mem_erase_of_ne hxi]
            exact hpxpb ▸ hpxin
          · exact ⟨px, hmem_bs_u1 px hpxmem hpxpb, rfl, hpxin⟩
        obtain ⟨px1, hpx1mem, hpx1id, hpx1in⟩ := hpx1
        have hpx1filt : px1 ∈ u1.filter (fun b => !(S.contains b.id)) := by
          refine List.mem_filter.mpr ⟨hpx1mem, ?_⟩
          show (!(S.contains px1.id)) = true
          rw [hpx1id]
          exact hqtrue _ hnRSpx
        have hge1 : 1 ≤ occCount (u1.filter (fun b => !(S.contains b.id)))
            b'.id := by
          have h1 := count_le_occCount hpx1filt b'.id
          have h2 : 0 < px1.children.count b'.id :=
            List.count_pos_iff.mpr hpx1in
          omega
        rw [hbpar1, hbop, if_neg (Option.some_ne_none w)]
        omega
    · intro b' hb'
      obtain ⟨hbu, hq⟩ := List.mem_filter.mp hb'
      have hnRSb : ¬ ReachesVia (childrenOf bs) i b'.id := hqfalse _ hq
      obtain ⟨bo, hbo, hbid1, hbpar1, hform⟩ := hmemu1 b' hbu
      have hd : ∃ d, rootDist bs bs.length b'.id = some d := by
        have := hinv.2.2.2.2 bo hbo
        rw [← hbid1] at this
        cases hrd : rootDist bs bs.length b'.id with
        | none => rw [hrd] at this; simp at this
        | some d => exact ⟨d, rfl⟩
      obtain ⟨d, hd⟩ := hd
      have htr := rootDist_transfer_avoid hlook hstep hd hnRSb
      have hbound : d < (u1.filter (fun b => !(S.contains b.id))).length := by
        have hndf : (idsOf (u1.filter (fun b => !(S.contains b.id)))).Nodup := by
          have hsub : (idsOf (u1.filter (fun b => !(S.contains b.id)))).Sublist
              (idsOf u1) := by
            unfold idsOf
            exact List.Sublist.map (fun b => b.id) (List.filter_sublist u1)
          exact hnd1.sublist hsub
        exact rootDist_lt_length hndf htr
      have hmin := rootDist_min_fuel htr
      have := rootDist_mono hmin (show d + 1 ≤
        (u1.filter (fun b => !(S.contains b.id))).length by omega)
      rw [this]
      rfl

theorem stateInv_setAxis {s : BlockState} (hs : StateInv s) {ax : Axis}
    {l : List Block} (hl : ForestInv l) : StateInv (setAxisBlocks s ax l) := by
  cases ax
  · exact ⟨hl, hs.2⟩
  · exact ⟨hs.1, hl⟩

theorem stateInv_axis {s : BlockState} (hs : StateInv s) (ax : Axis) :
    ForestInv (axisBlocks s ax) := by
  cases ax
  · exact hs.1
  · exact hs.2

/-- Claim C3, amended: on a state satisfying the forest invariant,
`reorderBlock` and `updateLabel` preserve it for all arguments;
`addBlock` preserves it for fresh blocks (new id, empty children, parent
reference equal to the addressed parent); `removeBlock` preserves it when
no identifier of the axis is the empty string and the removed node is not
the axis root. -/
theorem claim_C3 (s : BlockState) (hs : StateInv s) :
    (∀ ax pid a o, StateInv (reorderBlock ax pid a o s)) ∧
    (∀ ax i lb, StateInv (updateLabel ax i lb s)) ∧
    (∀ ax pid blk, blk.id ∉ idsOf (axisBlocks s ax) → blk.parentId = some pid →
      blk.children = [] → StateInv (addBlock ax pid blk s)) ∧
    (∀ ax i, (∀ b ∈ axisBlocks s ax, b.id ≠ "") →
      (∀ blk, findBlock (axisBlocks s ax) i = some blk →
        blk.parentId ≠ none) →
      StateInv (removeBlock ax i s)) := by
  refine ⟨?_, ?_, ?_, ?_⟩
  · intro ax pid a o
    exact stateInv_setAxis hs (reorderAxis_inv (stateInv_axis hs ax) pid a o)
  · intro ax i lb
    exact stateInv_setAxis hs (updateLabelAxis_inv (stateInv_axis hs ax) i lb)
  · intro ax pid blk hfresh hpar hch
    exact stateInv_setAxis hs
      (addAxis_inv (stateInv_axis hs ax) blk hfresh hpar hch)
  · intro ax i hEmpty hnr
    exact stateInv_setAxis hs
      (removeAxis_inv (stateInv_axis hs ax) hEmpty i hnr)

/-- A minimal two-axis state: one root per axis, no children. -/
def cexState : BlockState where
  rowBlocks := [ { id := "R", label := "r", parentId := none, children := [] } ]
  columnBlocks :=
    [ { id := "C", label := "c", parentId := none, children := [] } ]

/-- Counterexample to claim C3 as stated: removing the axis root is a
legal call with an identifier present in the flat list, yet it empties
the axis, which then no longer has exactly one root. -/
theorem claim_C3_counterexample :
    StateInv cexState ∧ ¬ StateInv (removeBlock Axis.row "R" cexState) := by
  decide

/-- Witness for the amended claim C3 on the initial store state. -/
theorem claim_C3_witness :
    StateInv initialState ∧
    StateInv (reorderBlock Axis.row "ROW_ROOT" "ROW_A" "ROW_B" initialState) ∧
    StateInv (updateLabel Axis.row "ROW_A" "x" initialState) ∧
    StateInv (addBlock Axis.row "ROW_A" freshBlock initialState) ∧
    StateInv (removeBlock Axis.row "ROW_A" initialState) := by
  have h := claim_C3 initialState (by decide)
  refine ⟨by decide, h.1 Axis.row "ROW_ROOT" "ROW_A" "ROW_B",
    h.2.1 Axis.row "ROW_A" "x",
    h.2.2.1 Axis.row "ROW_A" freshBlock (by decide) (by decide) (by decide),
    h.2.2.2 Axis.row "ROW_A" (by decide) ?_⟩
  intro blk hblk
  have h2 : findBlock initialState.rowBlocks "ROW_A" = some rowABlock := by
    decide
  rw [show axisBlocks initialState Axis.row = initialState.rowBlocks from rfl,
    h2] at hblk
  cases hblk
  decide
